import Mathlib

/-!
Verification of the coloured Petri net simulation engine of
`Petrinets Modelling/Mond_process.py` (classes `ColouredToken`, `Place`,
`Transition`, `PetriNet`, the builder `build_mond_process` and the bounded
breadth-first search `find_sequence_bfs`).

Embedding conventions:
* Python floats used for the quantitative token attributes (`mass`, `T`,
  `purity`, `time_in_process`) carry only small decimal constants in the
  source; they are modelled as rationals.
* The Python `dict`s keyed by place / transition name are modelled as lists
  in insertion order (Python 3.7+ dicts iterate in insertion order); the
  engine keeps names unique via `add_place` / `add_transition`.
* Python exceptions propagate out of a method while leaving all mutations
  performed so far in place.  Operations that can raise therefore return the
  (possibly midway-mutated) state together with an optional error message.
* `uuid.uuid4()` and the `random.random()` draws of the quality-check router
  are external entropy sources; they are modelled by a fresh-id counter
  `uuid_ctr` and a pre-drawn stream of booleans `coins` threaded through the
  net state.  No claim depends on the concrete values drawn.
* `random.choice` inside `auto_run` is modelled by an oracle `Nat → Nat`
  supplied by the caller and indexed by the iteration number.
-/

/-- `ColouredToken` of the source: a typed unit of material.  `batch_id` is
the identity string; quantitative fields are rationals (see header). -/
structure ColouredToken where
  ttype : String
  batch_id : String
  mass : ℚ
  T : Option ℚ
  purity : Option ℚ
  time_in_process : ℚ
deriving DecidableEq

/-- `Place` of the source: a named container of tokens with an optional
capacity bound (`None` means unlimited). -/
structure Place where
  name : String
  tokens : List ColouredToken
  capacity : Option Nat
deriving DecidableEq

/-- Number of tokens held (`Place.count`). -/
def Place.count (p : Place) : Nat := p.tokens.length

/-- One iteration of the `Place.add_tokens` loop body: check capacity, then
append.  Returns the (possibly unchanged) place and an error message when the
`ValueError` for exceeded capacity is raised. -/
def Place.addOne (p : Place) (t : ColouredToken) : Place × Option String :=
  match p.capacity with
  | some c =>
      if c ≤ p.tokens.length then
        (p, some ("Place " ++ p.name ++ " capacity exceeded"))
      else ({ p with tokens := p.tokens ++ [t] }, none)
  | none => ({ p with tokens := p.tokens ++ [t] }, none)

/-- `Place.add_tokens` on a list argument: the source loops over the tokens,
raising at the first capacity violation.  Tokens appended before the raise
stay appended (the exception propagates with the mutation kept). -/
def Place.add_tokens : Place → List ColouredToken → Place × Option String
  | p, [] => (p, none)
  | p, t :: ts =>
      match p.addOne t with
      | (q, none) => q.add_tokens ts
      | (q, some e) => (q, some e)

/-- `Place.find_tokens`: first-match selection of up to `lim` tokens
satisfying the condition, in place order.  The source loop that appends
matching tokens and breaks at the limit is equivalent to filtering and then
taking the first `lim` elements. -/
def Place.find_tokens (p : Place) (cond : Option (ColouredToken → Bool))
    (lim : Option Nat) : List ColouredToken :=
  let matching := match cond with
    | none => p.tokens
    | some c => p.tokens.filter c
  match lim with
  | none => matching
  | some l => matching.take l

/-- `Place.remove_tokens`: the source loops `self.tokens.remove(t)`, which
deletes the first occurrence and raises `ValueError` when the token is
absent.  On error the removals already performed stay performed. -/
def Place.remove_tokens : Place → List ColouredToken → Place × Option String
  | p, [] => (p, none)
  | p, t :: ts =>
      if t ∈ p.tokens then
        Place.remove_tokens { p with tokens := p.tokens.erase t } ts
      else (p, some "ValueError: list.remove(x): x not in list")

/-- `Place.clear`. -/
def Place.clear (p : Place) : Place := { p with tokens := [] }

/-- The transition-free part of the Python `PetriNet` object: the fields that
guard predicates and output callables access (`places`, `stats`, the logical
clock, the batch-id counter) plus the modelled entropy sources (see header).
Grouping them keeps guard/output function types free of a negative recursive
occurrence of the net type. -/
structure NetState where
  places : List Place
  stats : List (String × Nat)
  global_time : Nat
  batch_counter : Nat
  uuid_ctr : Nat
  coins : List Bool
deriving DecidableEq

/-- Fresh id standing for `str(uuid.uuid4())[:8]` (an external entropy
source; the concrete characters never matter to the engine). -/
def NetState.uuid4 (s : NetState) : String × NetState :=
  ("U" ++ toString s.uuid_ctr, { s with uuid_ctr := s.uuid_ctr + 1 })

/-- Draw standing for one `random.random() <= p` comparison of the
quality-check router: the next pre-drawn boolean (`true` when exhausted). -/
def NetState.drawCoin (s : NetState) : Bool × NetState :=
  match s.coins with
  | [] => (true, s)
  | b :: bs => (b, { s with coins := bs })

/-- First place carrying the given name (`petri.places[pname]`;
names are unique because `add_place` rejects duplicates). -/
def NetState.lookupPlace (s : NetState) (nm : String) : Option Place :=
  s.places.find? (fun p => p.name == nm)

/-- Replace the first place carrying the given name. -/
def replacePlace : List Place → String → Place → List Place
  | [], _, _ => []
  | q :: qs, nm, p =>
      if q.name == nm then p :: qs else q :: replacePlace qs nm p

/-- Write back a mutated place (the Python methods mutate the shared `Place`
object held in the `places` dict). -/
def NetState.setPlace (s : NetState) (nm : String) (p : Place) : NetState :=
  { s with places := replacePlace s.places nm p }

/-- Token count of a named place; a name absent from the dict raises
`KeyError` in Python — the claims are stated over nets whose transitions only
mention registered places, and the model reads an absent place as empty. -/
def NetState.placeCount (s : NetState) (nm : String) : Nat :=
  match s.lookupPlace nm with
  | none => 0
  | some p => p.count

/-- `self.stats[key] += 1` on the `defaultdict(int)`. -/
def bumpStat : List (String × Nat) → String → List (String × Nat)
  | [], k => [(k, 1)]
  | (k0, v) :: rest, k =>
      if k0 == k then (k0, v + 1) :: rest else (k0, v) :: bumpStat rest k

/-- `NetState` version of `PetriNet.next_batch_id` (output callables call it
through the net object): increment the counter, render it zero-padded. -/
def decDigits (n : Nat) : List Char :=
  if h : n < 10 then [Char.ofNat (48 + n)]
  else decDigits (n / 10) ++ [Char.ofNat (48 + n % 10)]
decreasing_by
  exact Nat.div_lt_self (Nat.pos_of_ne_zero (by omega)) (by omega)

/-- Python `format(n, "0wd")`: decimal digits left-padded with zeros to the
requested width. -/
def pyZeroPad (width n : Nat) : String :=
  String.mk (List.replicate (width - (decDigits n).length) '0' ++ decDigits n)

def NetState.next_batch_id (s : NetState) : String × NetState :=
  let c := s.batch_counter + 1
  (pyZeroPad 4 c, { s with batch_counter := c })

/-- Token selection handed to guards and output rules:
`dict place_name -> list(tokens)` in input order. -/
abbrev Selection := List (String × List ColouredToken)

/-- `selected.get(pname, [])`. -/
def Selection.get (sel : Selection) (nm : String) : List ColouredToken :=
  match sel.find? (fun e => e.1 == nm) with
  | none => []
  | some e => e.2

/-- An entry of the `outputs` dict: either a fixed integer weight or a
computed production rule.  The source rules receive `(selected, petri)`, may
mutate the net (place contents, stats, counters) and may return token(s) to
add; a rule is modelled as a total function on the transition-free net state
returning the new state and the tokens to add (`[]` stands for a falsy
Python return: `None` or an empty list; a single returned token is the
singleton list, exactly as `fire` normalises it). -/
inductive OutVal where
  | weight (w : Nat)
  | rule (f : Selection → NetState → NetState × List ColouredToken)

/-- `Transition` of the source. -/
structure Transition where
  name : String
  inputs : List (String × Nat)
  outputs : List (String × OutVal)
  guard : Option (NetState → Selection → Bool)
  description : String
  fired_count : Nat

/-- `PetriNet` of the source; the non-transition fields live in `state`. -/
structure PetriNet where
  state : NetState
  transitions : List Transition

def PetriNet.places (net : PetriNet) : List Place := net.state.places

/-- `Transition.is_enabled`: pure count check over the input weights; the
guard is not consulted and nothing is mutated. -/
def Transition.is_enabled (t : Transition) (net : PetriNet) : Bool :=
  t.inputs.all (fun e => e.2 ≤ net.state.placeCount e.1)

/-- `Transition.select_tokens`: for each input entry take the first `w`
tokens of the place (`find_tokens(limit=w)` with no condition); `none` when
some place yields fewer than `w` (the source returns `None`). -/
def selectLoop (s : NetState) : List (String × Nat) → Option Selection
  | [] => some []
  | (pn, w) :: rest =>
      let toks := match s.lookupPlace pn with
        | none => []
        | some p => p.find_tokens none (some w)
      if toks.length < w then none
      else match selectLoop s rest with
        | none => none
        | some sel => some ((pn, toks) :: sel)

def Transition.select_tokens (t : Transition) (net : PetriNet) : Option Selection :=
  selectLoop net.state t.inputs

/-- The token-removal stage of `fire`: `remove_tokens` on each input place in
selection order.  A raise midway (impossible for selections produced by
`select_tokens`, proved below) keeps earlier removals. -/
def removeStage : NetState → Selection → NetState × Option String
  | s, [] => (s, none)
  | s, (pn, toks) :: rest =>
      match s.lookupPlace pn with
      | none => (s, some ("KeyError: " ++ pn))
      | some p =>
          match p.remove_tokens toks with
          | (p2, none) => removeStage (s.setPlace pn p2) rest
          | (p2, some e) => (s.setPlace pn p2, some e)

/-- Character-list prefix test. -/
def chPrefix : List Char → List Char → Bool
  | [], _ => true
  | _ :: _, [] => false
  | a :: as, b :: bs => a == b && chPrefix as bs

/-- Character-list substring test. -/
def chInfix (sub : List Char) : List Char → Bool
  | [] => sub.isEmpty
  | c :: rest => chPrefix sub (c :: rest) || chInfix sub rest

/-- Python `sub in s` on strings. -/
def pyIn (sub s : String) : Bool := chInfix sub.toList s.toList

/-- ASCII upper-casing of one character (`str.upper` on the engine's ASCII
place names). -/
def chUp (c : Char) : Char :=
  if 97 ≤ c.toNat && c.toNat ≤ 122 then Char.ofNat (c.toNat - 32) else c

/-- ASCII lower-casing of one character. -/
def chDown (c : Char) : Char :=
  if 65 ≤ c.toNat && c.toNat ≤ 90 then Char.ofNat (c.toNat + 32) else c

/-- `s.upper()`. -/
def strUpper (s : String) : String := String.mk (s.toList.map chUp)

/-- `s.lower()`. -/
def strLower (s : String) : String := String.mk (s.toList.map chDown)

/-- `s.startswith(pre)`. -/
def pyStartsWith (s pre : String) : Bool := chPrefix pre.toList s.toList

/-- One iteration of the default-token synthesis loop of `fire` for an
integer-weight output: infer the token type from the output place name by the
source's string-matching heuristics and build the token, consuming the
batch-id counter (NiCO4 branch) or a uuid (the other branches). -/
def synthToken (nm : String) (s : NetState) : ColouredToken × NetState :=
  if pyIn "NiCO4" nm || pyIn "NiCO4" (strUpper nm) then
    let (bid, s1) := s.next_batch_id
    ({ ttype := "NiCO4", batch_id := "B-" ++ bid, mass := 1, T := some 25,
       purity := none, time_in_process := 0 }, s1)
  else if pyIn "CO" (strUpper nm) || pyStartsWith (strLower nm) "p_co" then
    let (u, s1) := s.uuid4
    ({ ttype := "CO", batch_id := u, mass := 1, T := none,
       purity := none, time_in_process := 0 }, s1)
  else if pyIn "Ni" nm && pyIn "pure" nm then
    let (u, s1) := s.uuid4
    ({ ttype := "Ni_pure", batch_id := u, mass := 1, T := none,
       purity := some (99 / 100), time_in_process := 0 }, s1)
  else
    let (u, s1) := s.uuid4
    ({ ttype := "material", batch_id := u, mass := 1, T := none,
       purity := none, time_in_process := 0 }, s1)

/-- The `for i in range(int(out_val))` loop building `produced`. -/
def synthTokens (nm : String) : Nat → NetState → List ColouredToken × NetState
  | 0, s => ([], s)
  | w + 1, s =>
      let (t, s1) := synthToken nm s
      let (ts, s2) := synthTokens nm w s1
      (t :: ts, s2)

/-- `petri.places[pn].add_tokens(ts)`: look the place up (KeyError when
absent) and run the batch add; midway mutations survive an error. -/
def addToPlace (s : NetState) (pn : String) (ts : List ColouredToken) :
    NetState × Option String :=
  match s.lookupPlace pn with
  | none => (s, some ("KeyError: " ++ pn))
  | some p =>
      match p.add_tokens ts with
      | (p2, none) => (s.setPlace pn p2, none)
      | (p2, some e) => (s.setPlace pn p2, some e)

/-- The output-production stage of `fire`, one `outputs` entry at a time.
A computed rule is invoked first and its returned tokens are added only when
the return value is truthy (so the output place is not even looked up for an
empty return); an integer weight synthesizes that many default tokens and
adds the whole batch.  The first error aborts the stage, keeping all
mutations made so far. -/
def outputStage (sel : Selection) :
    NetState → List (String × OutVal) → NetState × Option String
  | s, [] => (s, none)
  | s, (pn, OutVal.weight w) :: rest =>
      let (produced, s1) := synthTokens pn w s
      match addToPlace s1 pn produced with
      | (s2, none) => outputStage sel s2 rest
      | (s2, some e) => (s2, some e)
  | s, (pn, OutVal.rule f) :: rest =>
      let (s1, toks) := f sel s
      if toks.isEmpty then outputStage sel s1 rest
      else
        match addToPlace s1 pn toks with
        | (s2, none) => outputStage sel s2 rest
        | (s2, some e) => (s2, some e)

/-- Outcome of one call to `Transition.fire`.  `ok` carries the selected
tokens (the source returns `(True, selected)`), `rejected` the failure reason
of a `(False, reason)` return, and `exn` a raised exception; in the latter
case the carried net keeps every mutation performed before the raise, exactly
as the Python exception propagates out of the mutated object graph. -/
inductive FireResult where
  | ok (info : Selection) (net : PetriNet)
  | rejected (reason : String) (net : PetriNet)
  | exn (msg : String) (net : PetriNet)

/-- `self.fired_count += 1`: the fired transition object lives (uniquely, by
`add_transition`) in the net's transition dict, so the bump updates the first
entry carrying the transition's name. -/
def bumpFired : List Transition → String → List Transition
  | [], _ => []
  | t :: ts, nm =>
      if t.name == nm then { t with fired_count := t.fired_count + 1 } :: ts
      else t :: bumpFired ts nm

/-- `Transition.fire`: count gate, token selection, guard, then the atomic
apply phase (remove all selected tokens, run the output stage, bump
`fired_count`).  The rejection reasons are the source's strings (the second
one is spelled with a contraction in the source). -/
def Transition.fire (t : Transition) (net : PetriNet) : FireResult :=
  if !(t.is_enabled net) then .rejected "not enabled by counts" net
  else
    match t.select_tokens net with
    | none => .rejected "could not select tokens" net
    | some selected =>
      let guardOk := match t.guard with
        | none => true
        | some g => g net.state selected
      if !guardOk then .rejected "guard blocked firing" net
      else
        match removeStage net.state selected with
        | (s1, some e) => .exn e { net with state := s1 }
        | (s1, none) =>
          match outputStage selected s1 t.outputs with
          | (s2, some e) => .exn e { net with state := s2 }
          | (s2, none) =>
              .ok selected
                { state := s2, transitions := bumpFired net.transitions t.name }

/-- `PetriNet.add_place`: rejects duplicate names. -/
def PetriNet.add_place (net : PetriNet) (p : Place) : PetriNet × Option String :=
  if (net.state.lookupPlace p.name).isSome then (net, some "place exists")
  else ({ net with state := { net.state with places := net.state.places ++ [p] } }, none)

/-- `PetriNet.add_transition`: rejects duplicate names. -/
def PetriNet.add_transition (net : PetriNet) (t : Transition) :
    PetriNet × Option String :=
  if (net.transitions.find? (fun u => u.name == t.name)).isSome then
    (net, some "transition exists")
  else ({ net with transitions := net.transitions ++ [t] }, none)

/-- `PetriNet.next_batch_id`. -/
def PetriNet.next_batch_id (net : PetriNet) : String × PetriNet :=
  let (bid, s) := net.state.next_batch_id
  (bid, { net with state := s })

/-- `PetriNet.get_enabled_transitions`. -/
def PetriNet.get_enabled_transitions (net : PetriNet) : List Transition :=
  net.transitions.filter (fun t => t.is_enabled net)

/-- `self.transitions[name]` lookup. -/
def findTransition (net : PetriNet) (nm : String) : Option Transition :=
  net.transitions.find? (fun t => t.name == nm)

/-- `tr.fire(net)` reached through the transition dict (used by the
breadth-first search). -/
def PetriNet.fireByName (net : PetriNet) (nm : String) : FireResult :=
  match findTransition net nm with
  | none => .exn ("KeyError: " ++ nm) net
  | some tr => tr.fire net

/-- `PetriNet.step_fire`: dict lookup (KeyError on an unknown name), fire,
and on success bump the net's per-transition statistic. -/
def PetriNet.step_fire (net : PetriNet) (nm : String) : FireResult :=
  match findTransition net nm with
  | none => .exn ("KeyError: " ++ nm) net
  | some tr =>
      match tr.fire net with
      | .ok info n2 =>
          .ok info
            { n2 with state :=
                { n2.state with stats := bumpStat n2.state.stats ("fired::" ++ nm) } }
      | r => r

/-- `PetriNet.status_snapshot`: place name → token count, in dict order. -/
def PetriNet.status_snapshot (net : PetriNet) : List (String × Nat) :=
  net.state.places.map (fun p => (p.name, p.count))

/-- `snapshot.get(nm, 0)` as used by goal predicates. -/
def snapGet (snap : List (String × Nat)) (nm : String) : Nat :=
  match snap.find? (fun e => e.1 == nm) with
  | none => 0
  | some e => e.2

/-- Result of `PetriNet.auto_run`: the final net, the number of completed
iterations (the logical clock advances by one tick per completed iteration),
the step index at which the loop broke because no transition was enabled (if
it did), and a propagated exception message (if one was raised; the carried
net is the state at the raise). -/
structure RunResult where
  net : PetriNet
  ticks : Nat
  deadlockStep : Option Nat
  error : Option String

/-- The nested priority scan of the `prioritise` policy: first priority name
for which some enabled transition carries it, taking the first such
transition in enabled order. -/
def pickPriority : List String → List Transition → Option Transition
  | [], _ => none
  | pn :: rest, en =>
      match en.find? (fun t => t.name == pn) with
      | some t => some t
      | none => pickPriority rest en

/-- The policy dispatch of one `auto_run` iteration.  `random.choice` over a
non-empty list is modelled by indexing with the oracle draw modulo the
length; an unrecognized policy string falls into the final `else` branch,
which is the same `random.choice` call. -/
def choosePolicy (policy : String) (enabled : List Transition) (r : Nat) :
    Option Transition :=
  if policy == "random" then enabled.get? (r % enabled.length)
  else if policy == "prioritise" then
    match pickPriority ["T6", "T10", "T11", "T8", "T7"] enabled with
    | some t => some t
    | none => enabled.get? (r % enabled.length)
  else enabled.get? (r % enabled.length)

/-- End-of-iteration bookkeeping of `auto_run` after a successful fire:
the per-transition statistic bump and the clock tick. -/
def tickStat (n2 : PetriNet) (nm : String) : PetriNet :=
  { n2 with state := { n2.state with
      stats := bumpStat n2.state.stats ("fired::" ++ nm),
      global_time := n2.state.global_time + 1 } }

/-- End-of-iteration bookkeeping after a failed fire attempt: the clock tick
alone. -/
def tickOnly (n2 : PetriNet) : PetriNet :=
  { n2 with state := { n2.state with
      global_time := n2.state.global_time + 1 } }

/-- The `for step in range(steps)` loop of `auto_run`; `rem` counts the
remaining iterations and `idx` is the current step index (also the oracle
position).  Each iteration recomputes the enabled list, breaks when it is
empty, otherwise picks a transition per the policy, attempts to fire it
(bumping the per-transition statistic on success) and advances the clock by
one tick whether or not the fire succeeded.  A raised exception aborts the
run mid-iteration without a tick. -/
def autoRunLoop (oracle : Nat → Nat) (policy : String) :
    PetriNet → Nat → Nat → RunResult
  | net, 0, _ => { net := net, ticks := 0, deadlockStep := none, error := none }
  | net, rem + 1, idx =>
      let enabled := net.transitions.filter (fun t => t.is_enabled net)
      match enabled with
      | [] => { net := net, ticks := 0, deadlockStep := some idx, error := none }
      | hd :: tl =>
        let chosen := (choosePolicy policy (hd :: tl) (oracle idx)).getD hd
        match chosen.fire net with
        | .exn e n2 =>
            { net := n2, ticks := 0, deadlockStep := none, error := some e }
        | .ok _ n2 =>
            let res := autoRunLoop oracle policy (tickStat n2 chosen.name)
              rem (idx + 1)
            { res with ticks := res.ticks + 1 }
        | .rejected _ n2 =>
            let res := autoRunLoop oracle policy (tickOnly n2) rem (idx + 1)
            { res with ticks := res.ticks + 1 }

/-- `PetriNet.auto_run(steps, policy)`, with the `random.choice` draws
supplied by `oracle` (indexed by step). -/
def PetriNet.auto_run (net : PetriNet) (steps : Nat) (policy : String)
    (oracle : Nat → Nat) : RunResult :=
  autoRunLoop oracle policy net steps 0

/-- The branching step of `find_sequence_bfs`: for each enabled transition of
the dequeued state, fire it on a copy (nets are immutable values here, so the
`deepcopy` is the value itself) and keep the successor with the extended
name sequence when the fire succeeded.  An exception raised by some fire
propagates out of the whole search. -/
def expandLoop (net : PetriNet) (seq : List String) :
    List Transition → Except String (List (PetriNet × List String))
  | [] => .ok []
  | t :: ts =>
      match net.fireByName t.name with
      | .exn e _ => .error e
      | .rejected _ _ => expandLoop net seq ts
      | .ok _ n2 =>
          match expandLoop net seq ts with
          | .error e => .error e
          | .ok rest => .ok ((n2, seq ++ [t.name]) :: rest)

/-- The `while queue:` loop of `find_sequence_bfs`.  The first component is
computation fuel, a pure termination device: `bfsFuel` below dominates the
loop's decreasing measure, so the fuel branch is unreachable from
`find_sequence_bfs` (proved with the claims). -/
def bfsLoop (goal : List (String × Nat) → Bool) (maxDepth : Nat) :
    Nat → List (PetriNet × List String) → Except String (Option (List String))
  | _, [] => .ok none
  | 0, _ :: _ => .error "model fuel exhausted"
  | fuel + 1, (net, seq) :: rest =>
      if goal net.status_snapshot then .ok (some seq)
      else if maxDepth ≤ seq.length then bfsLoop goal maxDepth fuel rest
      else
        match expandLoop net seq
            (net.transitions.filter (fun t => t.is_enabled net)) with
        | .error e => .error e
        | .ok kids => bfsLoop goal maxDepth fuel (rest ++ kids)

/-- Fuel bound dominating the breadth-first queue measure. -/
def bfsFuel (net : PetriNet) (maxDepth : Nat) : Nat :=
  (net.transitions.length + 1) ^ (maxDepth + 1)

/-- `find_sequence_bfs(net, goal_check_fn, max_depth)`. -/
def find_sequence_bfs (net : PetriNet) (goal : List (String × Nat) → Bool)
    (maxDepth : Nat) : Except String (Option (List String)) :=
  bfsLoop goal maxDepth (bfsFuel net maxDepth) [(net, [])]

/-- Place names of `build_mond_process`, in construction order. -/
def mondPlaceNames : List String :=
  ["P_feed_ore", "P_crush", "P_leach", "P_concentrate", "P_impure_Ni",
   "P_CO_feed", "P_carbonylation", "P_NiCO4_gas", "P_condenser",
   "P_transfer_to_decomp", "P_decomposer", "P_pure_Ni", "P_CO_recycle",
   "P_scrubber", "P_offgas", "P_quality_check", "P_storage"]

/-- Initial ore marking: ten `Ni_ore` tokens `ORE001 .. ORE010`. -/
def mondOreTokens : List ColouredToken :=
  (List.range 10).map (fun i =>
    { ttype := "Ni_ore", batch_id := "ORE" ++ pyZeroPad 3 (i + 1), mass := 1,
      T := none, purity := some (3 / 5), time_in_process := 0 })

/-- Initial CO marking: forty `CO` tokens `CO001 .. CO040`. -/
def mondCoTokens : List ColouredToken :=
  (List.range 40).map (fun i =>
    { ttype := "CO", batch_id := "CO" ++ pyZeroPad 3 (i + 1), mass := 1,
      T := none, purity := none, time_in_process := 0 })

/-- The places of the Mond net after construction and initial marking: each
name from `mondPlaceNames`, the condenser capacity-bounded at 5, feed ore and
CO feed seeded (all `add_place` / `add_tokens` calls of the builder succeed:
the names are distinct and the seeded places are unbounded). -/
def mondPlaces : List Place :=
  mondPlaceNames.map (fun nm =>
    { name := nm,
      tokens :=
        if nm == "P_feed_ore" then mondOreTokens
        else if nm == "P_CO_feed" then mondCoTokens
        else [],
      capacity := if nm == "P_condenser" then some 5 else none })

/-- `guard_T6`: requires a selected impure-Ni token whose purity, when set,
is at least 0.5. -/
def guard_T6 (_s : NetState) (sel : Selection) : Bool :=
  let toks := sel.get "P_impure_Ni"
  match toks with
  | [] => false
  | tok :: _ =>
      match tok.purity with
      | none => true
      | some q => decide ((1 : ℚ) / 2 ≤ q)

/-- `guard_T10`: requires at least one selected decomposer token. -/
def guard_T10 (_s : NetState) (sel : Selection) : Bool :=
  1 ≤ (sel.get "P_decomposer").length

/-- `create_NiCO4`: one NiCO4 token per carbonylation firing, inheriting the
mass of the consumed impure-Ni token and drawing a fresh batch id.  The
selection always holds that token when `fire` invokes the rule (input weight
1 and the guard passed); on the unreachable empty selection the rule yields
nothing. -/
def create_NiCO4 (sel : Selection) (s : NetState) :
    NetState × List ColouredToken :=
  match sel.get "P_impure_Ni" with
  | [] => (s, [])
  | inp :: _ =>
      let (bid, s1) := s.next_batch_id
      (s1, [{ ttype := "NiCO4", batch_id := "NC-" ++ bid, mass := inp.mass,
              T := some 25, purity := none, time_in_process := 0 }])

/-- `T10_output_callable`: produce one pure-Ni token into `P_pure_Ni` and
four recycled CO tokens into `P_CO_recycle` directly (both places are
registered and unbounded in the Mond net, so the adds cannot raise), then
return `None`. -/
def T10_output_callable (sel : Selection) (s : NetState) :
    NetState × List ColouredToken :=
  match sel.get "P_decomposer" with
  | [] => (s, [])
  | inp :: _ =>
      let (b0, s1) := s.next_batch_id
      let ni : ColouredToken :=
        { ttype := "Ni_pure", batch_id := "NP-" ++ b0, mass := inp.mass,
          T := some 25, purity := some (99 / 100), time_in_process := 0 }
      let (b1, s2) := s1.next_batch_id
      let (b2, s3) := s2.next_batch_id
      let (b3, s4) := s3.next_batch_id
      let (b4, s5) := s4.next_batch_id
      let co := [b1, b2, b3, b4].map (fun b =>
        { ttype := "CO", batch_id := "RCO-" ++ b, mass := (1 : ℚ),
          T := none, purity := none, time_in_process := (0 : ℚ) })
      let (s6, _) := addToPlace s5 "P_pure_Ni" [ni]
      let (s7, _) := addToPlace s6 "P_CO_recycle" co
      (s7, [])

/-- `T12_callable`: the probabilistic quality-check router; the
`random.random() <= pass_prob` draw is the next modelled coin.  Routes a copy
of the consumed token to storage or scrubber and bumps the matching
statistic, returning `None`. -/
def T12_callable (sel : Selection) (s : NetState) :
    NetState × List ColouredToken :=
  match sel.get "P_pure_Ni" with
  | [] => (s, [])
  | tok :: _ =>
      let (pass, s1) := s.drawCoin
      if pass then
        let (s2, _) := addToPlace s1 "P_storage" [tok]
        ({ s2 with stats := bumpStat s2.stats "qc_passed" }, [])
      else
        let (s2, _) := addToPlace s1 "P_scrubber" [tok]
        ({ s2 with stats := bumpStat s2.stats "qc_failed" }, [])

/-- Shorthand for a guard-free transition with weight outputs. -/
def mkT (nm : String) (ins : List (String × Nat)) (outs : List (String × Nat))
    (descr : String) : Transition :=
  { name := nm, inputs := ins,
    outputs := outs.map (fun e => (e.1, OutVal.weight e.2)),
    guard := none, description := descr, fired_count := 0 }

/-- The transitions `T1 .. T14` of `build_mond_process`, in construction
order. -/
def mondTransitions : List Transition :=
  [ mkT "T1" [] [("P_feed_ore", 1)] "Receive ore (external).",
    mkT "T2" [("P_feed_ore", 1)] [("P_crush", 1)] "Crush/grind.",
    mkT "T3" [("P_crush", 1)] [("P_concentrate", 1)] "Leach/concentrate.",
    mkT "T4" [("P_concentrate", 1)] [("P_impure_Ni", 1)]
      "Prepare impure Ni feed.",
    mkT "T5" [] [("P_CO_feed", 4)] "Introduce/replenish CO (external).",
    { name := "T6", inputs := [("P_impure_Ni", 1), ("P_CO_feed", 4)],
      outputs := [("P_NiCO4_gas", OutVal.rule create_NiCO4)],
      guard := some guard_T6,
      description := "Carbonylation: Ni + CO -> Ni(CO)4", fired_count := 0 },
    mkT "T7" [("P_NiCO4_gas", 1)] [("P_condenser", 1)]
      "Transfer to condenser.",
    mkT "T8" [("P_condenser", 1)] [("P_transfer_to_decomp", 1)]
      "Condense/collect Ni(CO)4.",
    mkT "T9" [("P_transfer_to_decomp", 1)] [("P_decomposer", 1)]
      "Transfer to decomposer.",
    { name := "T10", inputs := [("P_decomposer", 1)],
      outputs := [("P_pure_Ni", OutVal.rule T10_output_callable)],
      guard := some guard_T10,
      description := "Decomposition: NiCO4 -> Ni + CO", fired_count := 0 },
    mkT "T11" [("P_CO_recycle", 1)] [("P_CO_feed", 1)] "CO recycle to feed.",
    { name := "T12", inputs := [("P_pure_Ni", 1)],
      outputs := [("P_storage", OutVal.rule T12_callable)],
      guard := none,
      description := "Quality check (probabilistic).", fired_count := 0 },
    mkT "T13" [("P_scrubber", 1)] [("P_offgas", 1)] "Scrap/waste handling.",
    mkT "T14" [("P_NiCO4_gas", 1)] [("P_scrubber", 1)]
      "Emergency vent - route to scrubber." ]

/-- `build_mond_process()`: the seeded Mond-process net.  `coins` pre-draws
the ambient RNG stream consumed by the quality-check router (see header). -/
def build_mond_process (coins : List Bool) : PetriNet :=
  { state :=
      { places := mondPlaces, stats := [], global_time := 0,
        batch_counter := 0, uuid_ctr := 0, coins := coins },
    transitions := mondTransitions }

/-! ### Derived notions used by the statements -/

/-- Did the call raise? -/
def FireResult.isExn : FireResult → Bool
  | .exn _ _ => true
  | _ => false

/-- Did the call return `(True, selected)`? -/
def FireResult.isOk : FireResult → Bool
  | .ok _ _ => true
  | _ => false

/-- The net after the call (for a raise: the state at the raise). -/
def FireResult.resNet : FireResult → PetriNet
  | .ok _ n => n
  | .rejected _ n => n
  | .exn _ n => n

/-- `k` successive `next_batch_id` calls, keeping only the net. -/
def iterBatch (net : PetriNet) : Nat → PetriNet
  | 0 => net
  | k + 1 => (iterBatch net k).next_batch_id.2

/-- Decimal value of a digit string (left inverse of the padded rendering). -/
def decVal (cs : List Char) : Nat :=
  cs.foldl (fun a c => a * 10 + (c.toNat - 48)) 0

/-- Capacity invariant of one place. -/
def Place.capOk (p : Place) : Bool :=
  match p.capacity with
  | none => true
  | some c => p.tokens.length ≤ c

/-- Capacity invariant of every place of a state. -/
def NetState.capOk (s : NetState) : Bool := s.places.all Place.capOk

/-- Name and capacity of a place (the part of a place no engine operation
ever rewrites — only token lists change). -/
def placeShape (p : Place) : String × Option Nat := (p.name, p.capacity)

/-- The output rules of the net's transitions never rewrite the place
roster: they may move tokens and touch counters/statistics but keep every
place's name and capacity (true of all three rules of the Mond net, proved
below). -/
def RulesShapeOk (net : PetriNet) : Prop :=
  ∀ t ∈ net.transitions, ∀ pn f, (pn, OutVal.rule f) ∈ t.outputs →
    ∀ sel s, ((f sel s).1).places.map placeShape = s.places.map placeShape

/-- The output rules preserve the capacity invariant. -/
def RulesCapOk (net : PetriNet) : Prop :=
  ∀ t ∈ net.transitions, ∀ pn f, (pn, OutVal.rule f) ∈ t.outputs →
    ∀ sel s, NetState.capOk s = true → NetState.capOk ((f sel s).1) = true

/-- Rule-preservation hypothesis restricted to one transition's outputs. -/
def OutsCapOk (outs : List (String × OutVal)) : Prop :=
  ∀ pn f, (pn, OutVal.rule f) ∈ outs →
    ∀ sel s, NetState.capOk s = true → NetState.capOk ((f sel s).1) = true

/-- Shape-preservation hypothesis restricted to one transition's outputs. -/
def OutsShapeOk (outs : List (String × OutVal)) : Prop :=
  ∀ pn f, (pn, OutVal.rule f) ∈ outs →
    ∀ sel s, ((f sel s).1).places.map placeShape = s.places.map placeShape

/-- Clock-preservation hypothesis restricted to one transition's outputs:
the rules do not rewind or advance the engine's logical clock (no rule of
the repository touches it; only `auto_run` ticks it). -/
def OutsClockOk (outs : List (String × OutVal)) : Prop :=
  ∀ pn f, (pn, OutVal.rule f) ∈ outs →
    ∀ sel s, ((f sel s).1).global_time = s.global_time

/-- Net-wide clock-preservation hypothesis on all output rules. -/
def RulesClockOk (net : PetriNet) : Prop :=
  ∀ t ∈ net.transitions, OutsClockOk t.outputs

/-- The place roster of a state: names and capacities, in order. -/
def NetState.shape (s : NetState) : List (String × Option Nat) :=
  s.places.map placeShape

/-- The immutable part of a transition: everything but `fired_count`
(no engine operation rewrites a transition's name, inputs, outputs or
guard). -/
def Transition.core (t : Transition) :
    String × List (String × Nat) × List (String × OutVal)
      × Option (NetState → Selection → Bool) :=
  (t.name, t.inputs, t.outputs, t.guard)

/-- The net contains a source transition: one with an empty input mapping. -/
def hasSource (net : PetriNet) : Prop :=
  [] ∈ net.transitions.map Transition.inputs

/-- Within each transition, input place names are pairwise distinct (always
true in the source, where `inputs` is a dict keyed by place name; the list
embedding makes it an explicit condition). -/
def PetriNet.inputsNodup (net : PetriNet) : Prop :=
  ∀ t ∈ net.transitions, (t.inputs.map Prod.fst).Nodup

/-- No place of the state carries a capacity bound. -/
def NetState.noCaps (s : NetState) : Bool :=
  s.places.all (fun p => p.capacity == none)

/-- Every input and output place name of every transition is registered. -/
def PetriNet.registered (net : PetriNet) : Bool :=
  net.transitions.all (fun t =>
    t.inputs.all (fun e => (net.state.lookupPlace e.1).isSome) &&
    t.outputs.all (fun e => (net.state.lookupPlace e.1).isSome))

/-- Sufficient static condition under which no `fire` on any state reachable
from the net can raise: no capacity bounds, every mentioned place registered,
and output rules that keep the place roster.  (The counterexamples below show
`fire`, `auto_run` and the search all raise once a capacity bound can be hit,
which is what the amended claims exclude.) -/
def PetriNet.Safe (net : PetriNet) : Prop :=
  net.state.noCaps = true ∧ net.registered = true ∧ RulesShapeOk net
    ∧ net.inputsNodup

/-- Replaying a sequence of transition names: each step looks the transition
up in the dict and fires it successfully (`net_copy.transitions[name].fire`,
exactly the step the search simulates; `step_fire` additionally bumps the
firing statistic, which no place count depends on). -/
inductive ReplaySeq : PetriNet → List String → PetriNet → Prop where
  | nil (net : PetriNet) : ReplaySeq net [] net
  | cons {net : PetriNet} {nm : String} {sel : Selection} {n2 nfin : PetriNet}
      {rest : List String} (hfire : net.fireByName nm = .ok sel n2)
      (htail : ReplaySeq n2 rest nfin) : ReplaySeq net (nm :: rest) nfin

/-- Decreasing measure of the breadth-first queue: each entry weighs
exponentially in its remaining depth budget (`K` exceeds the branching
factor).  `bfsFuel` equals the measure of the initial queue, and each loop
step strictly decreases the measure, so the fuel branch of `bfsLoop` is
unreachable. -/
def queueMeasure (K maxd : Nat) (q : List (PetriNet × List String)) : Nat :=
  (q.map (fun e => K ^ (maxd + 1 - e.2.length))).sum

/-! ### Concrete nets used by scenarios, counterexamples and witnesses -/

def tokA : ColouredToken :=
  { ttype := "A", batch_id := "a", mass := 1, T := none, purity := none,
    time_in_process := 0 }

def tokB : ColouredToken :=
  { ttype := "B", batch_id := "b", mass := 1, T := none, purity := none,
    time_in_process := 0 }

def tokC : ColouredToken :=
  { ttype := "C", batch_id := "c", mass := 1, T := none, purity := none,
    time_in_process := 0 }

/-- A transition moving one token from `pin` to `pout`. -/
def TCap : Transition := mkT "T" [("pin", 1)] [("pout", 1)] ""

/-- One token in `pin`, output place `pout` full at capacity 0: firing `TCap`
raises after consuming the input. -/
def netCap : PetriNet :=
  { state :=
      { places := [{ name := "pin", tokens := [tokA], capacity := none },
                   { name := "pout", tokens := [], capacity := some 0 }],
        stats := [], global_time := 0, batch_counter := 0, uuid_ctr := 0,
        coins := [] },
    transitions := [TCap] }

/-- A guard-free source transition with no inputs, producing into `P`
(parametrized by its fire count, for stating the run scenario). -/
def srcT (k : Nat) : Transition :=
  { name := "T", inputs := [], outputs := [("P", OutVal.weight 1)],
    guard := none, description := "", fired_count := k }

def Tsrc : Transition := srcT 0

/-- A net on which exactly `Tsrc` is ever enabled and every fire succeeds. -/
def netSrc : PetriNet :=
  { state :=
      { places := [{ name := "P", tokens := [], capacity := none }],
        stats := [], global_time := 0, batch_counter := 0, uuid_ctr := 0,
        coins := [] },
    transitions := [Tsrc] }

/-- A source transition whose only output place is full: always enabled, yet
firing raises instead of succeeding. -/
def TsrcCap : Transition := mkT "T" [] [("Pfull", 1)] ""

def netSrcCap : PetriNet :=
  { state :=
      { places := [{ name := "Pfull", tokens := [], capacity := some 0 }],
        stats := [], global_time := 0, batch_counter := 0, uuid_ctr := 0,
        coins := [] },
    transitions := [TsrcCap] }

/-- A transition demanding a token from the empty place `q` (never
enabled). -/
def TQ : Transition := mkT "TQ" [("q", 1)] [("P", 1)] ""

def netDisabled : PetriNet :=
  { state :=
      { places := [{ name := "q", tokens := [], capacity := none },
                   { name := "P", tokens := [], capacity := none }],
        stats := [], global_time := 0, batch_counter := 0, uuid_ctr := 0,
        coins := [] },
    transitions := [TQ] }

/-- Two-step chain `a → b → c` holding one token in `a`. -/
def netChain : PetriNet :=
  { state :=
      { places := [{ name := "a", tokens := [tokA], capacity := none },
                   { name := "b", tokens := [], capacity := none },
                   { name := "c", tokens := [], capacity := none }],
        stats := [], global_time := 0, batch_counter := 0, uuid_ctr := 0,
        coins := [] },
    transitions := [mkT "Tab" [("a", 1)] [("b", 1)] "",
                    mkT "Tbc" [("b", 1)] [("c", 1)] ""] }

/-- Goal predicate over status snapshots: at least one token in place `c`
(reachable on `netChain` at depth 2). -/
def chainGoal : List (String × Nat) → Bool :=
  fun snap => decide (1 ≤ snapGet snap "c")

/-! ### Decimal rendering lemmas -/

theorem char_toNat_digit (k : Nat) (h : k < 10) :
    (Char.ofNat (48 + k)).toNat = 48 + k := by
  interval_cases k <;> rfl

theorem decVal_append (cs : List Char) (c : Char) :
    decVal (cs ++ [c]) = 10 * decVal cs + (c.toNat - 48) := by
  simp [decVal, List.foldl_append, Nat.mul_comm]

theorem decVal_decDigits (n : Nat) : decVal (decDigits n) = n := by
  induction n using Nat.strong_induction_on with
  | _ n ih =>
    rw [decDigits]
    split
    · rename_i h
      simp [decVal, char_toNat_digit n h]
    · rename_i h
      rw [decVal_append, ih (n / 10) (Nat.div_lt_self (by omega) (by omega)),
        char_toNat_digit (n % 10) (Nat.mod_lt n (by omega))]
      omega

theorem decVal_cons_zero (l : List Char) : decVal ('0' :: l) = decVal l := rfl

theorem decVal_replicate_zero (k : Nat) (cs : List Char) :
    decVal (List.replicate k '0' ++ cs) = decVal cs := by
  induction k with
  | zero => rfl
  | succ m ihm =>
      rw [List.replicate_succ, List.cons_append, decVal_cons_zero, ihm]

theorem pyZeroPad_inj (w : Nat) : Function.Injective (pyZeroPad w) := by
  intro m n h
  unfold pyZeroPad at h
  injection h with hl
  have := congrArg decVal hl
  rwa [decVal_replicate_zero, decVal_replicate_zero, decVal_decDigits,
    decVal_decDigits] at this

theorem iterBatch_counter (net : PetriNet) (k : Nat) :
    (iterBatch net k).state.batch_counter = net.state.batch_counter + k := by
  induction k with
  | zero => rfl
  | succ m ihm =>
      simp [iterBatch, PetriNet.next_batch_id, NetState.next_batch_id, ihm]
      omega

theorem iterBatch_id (net : PetriNet) (k : Nat) :
    (iterBatch net k).next_batch_id.1
      = pyZeroPad 4 (net.state.batch_counter + k + 1) := by
  simp [PetriNet.next_batch_id, NetState.next_batch_id, iterBatch_counter]

/-! ### Claim theorems -/

/-- C3: the claim states `Place.add_tokens` with a list is all-or-nothing —
either every given token is appended or the token list is exactly what it was
before the call.  The code appends one token at a time and raises at the
first capacity violation, leaving the earlier appends applied: on a
capacity-2 place holding one token, adding a batch of two raises with the
first batch token appended (final list `[tokA, tokB]`, neither unchanged nor
fully added).  The spec explicitly mandates the all-or-nothing contract
(design note: the source's behaviour was flagged), so the code, evaluated
here at the failing input, is the deviating side. -/
theorem C3_add_tokens_partial :
    (Place.add_tokens { name := "p", tokens := [tokA], capacity := some 2 }
        [tokB, tokC]).2 = some "Place p capacity exceeded"
  ∧ (Place.add_tokens { name := "p", tokens := [tokA], capacity := some 2 }
        [tokB, tokC]).1.tokens = [tokA, tokB] := by
  exact ⟨rfl, rfl⟩

/-- C8: `next_batch_id` increments the batch counter by exactly one per call
and returns the new counter zero-padded to width 4; across any two calls on
the same net the later call returns the strictly greater counter, and any two
distinct calls return distinct identifier strings. -/
theorem C8_next_batch_id (net : PetriNet) (i j : Nat) :
    (iterBatch net i).next_batch_id.2.state.batch_counter
        = net.state.batch_counter + i + 1
  ∧ (iterBatch net i).next_batch_id.1
        = pyZeroPad 4 (net.state.batch_counter + i + 1)
  ∧ (i < j → (iterBatch net i).next_batch_id.2.state.batch_counter
        < (iterBatch net j).next_batch_id.2.state.batch_counter)
  ∧ (i ≠ j → (iterBatch net i).next_batch_id.1
        ≠ (iterBatch net j).next_batch_id.1) := by
  refine ⟨?_, iterBatch_id net i, ?_, ?_⟩
  · show (iterBatch net (i + 1)).state.batch_counter = _
    rw [iterBatch_counter]
    omega
  · intro hij
    show (iterBatch net (i + 1)).state.batch_counter
        < (iterBatch net (j + 1)).state.batch_counter
    rw [iterBatch_counter, iterBatch_counter]
    omega
  · intro hij hcontra
    rw [iterBatch_id, iterBatch_id] at hcontra
    have := pyZeroPad_inj 4 hcontra
    omega

/-- Witness for C8 at the first two calls on a concrete net. -/
theorem C8_next_batch_id_witness :
    (0 : Nat) < 1
  ∧ (iterBatch netSrc 0).next_batch_id.2.state.batch_counter
      < (iterBatch netSrc 1).next_batch_id.2.state.batch_counter
  ∧ (iterBatch netSrc 0).next_batch_id.1 ≠ (iterBatch netSrc 1).next_batch_id.1 :=
  ⟨by decide, (C8_next_batch_id netSrc 0 1).2.2.1 (by decide),
    (C8_next_batch_id netSrc 0 1).2.2.2 (by decide)⟩

/-- Any `(False, reason)` return of `fire` happens before the apply phase and
hands back the untouched net object. -/
theorem fire_rejected_eq {t : Transition} {net : PetriNet} {r : String}
    {n2 : PetriNet} (h : t.fire net = .rejected r n2) : n2 = net := by
  unfold Transition.fire at h
  split at h
  · cases h; rfl
  · split at h
    · cases h; rfl
    · dsimp only at h
      split at h
      · cases h; rfl
      · split at h
        · cases h
        · split at h
          · cases h
          · cases h

/-- C5: `is_enabled` is true exactly when every input entry's place holds at
least the entry's weight; it is a pure function that ignores the guard
entirely (replacing the guard leaves its value unchanged), and
`get_enabled_transitions` returns exactly the transitions of the net passing
this count check.  The hypothesis pins the claim to nets whose input names
are registered (an unregistered name raises `KeyError` in the source). -/
theorem C5_is_enabled_counts (net : PetriNet) (t : Transition)
    (_hreg : ∀ e ∈ t.inputs, (net.state.lookupPlace e.1).isSome = true) :
    (t.is_enabled net = true ↔ ∀ e ∈ t.inputs, e.2 ≤ net.state.placeCount e.1)
  ∧ (∀ g, Transition.is_enabled { t with guard := g } net = t.is_enabled net)
  ∧ (∀ u, u ∈ net.get_enabled_transitions ↔
      u ∈ net.transitions ∧ u.is_enabled net = true) := by
  refine ⟨?_, fun g => rfl, fun u => ?_⟩
  · simp [Transition.is_enabled, List.all_eq_true]
  · simp [PetriNet.get_enabled_transitions, List.mem_filter]

/-- Witness for C5 on a concrete registered net. -/
theorem C5_is_enabled_counts_witness :
    (∀ e ∈ TQ.inputs, (netDisabled.state.lookupPlace e.1).isSome = true)
  ∧ (TQ.is_enabled netDisabled = true ↔
      ∀ e ∈ TQ.inputs, e.2 ≤ netDisabled.state.placeCount e.1) :=
  ⟨by decide, (C5_is_enabled_counts netDisabled TQ (by decide)).1⟩

/-- C2: every rejection path of `fire` returns a `(False, reason)` value
built from the untouched input net — so every place's token list, the
transition's `fired_count` and the net's statistics are exactly as before the
call; in particular a disabled transition yields the count rejection, and a
false guard yields the guard rejection, with nothing mutated (token selection
mutates nothing). -/
theorem C2_rejection_leaves_net (t : Transition) (net : PetriNet) :
    (t.is_enabled net = false →
      t.fire net = .rejected "not enabled by counts" net)
  ∧ (∀ g sel, t.is_enabled net = true → t.guard = some g →
      t.select_tokens net = some sel → g net.state sel = false →
      t.fire net = .rejected "guard blocked firing" net)
  ∧ (∀ r n2, t.fire net = .rejected r n2 → n2 = net) := by
  refine ⟨?_, ?_, fun r n2 h => fire_rejected_eq h⟩
  · intro h
    simp [Transition.fire, h]
  · intro g sel hen hg hsel hguard
    simp [Transition.fire, hen, hg, hsel, hguard]

/-- Witness for C2 on a disabled transition of a concrete net. -/
theorem C2_rejection_leaves_net_witness :
    TQ.is_enabled netDisabled = false
  ∧ TQ.fire netDisabled = .rejected "not enabled by counts" netDisabled :=
  ⟨by decide, (C2_rejection_leaves_net TQ netDisabled).1 (by decide)⟩

/-! ### Selection / removal bookkeeping (towards the firing atomicity claim) -/

theorem find_tokens_take (p : Place) (w : Nat) :
    p.find_tokens none (some w) = p.tokens.take w := rfl

theorem remove_prefix (p : Place) (xs ys : List ColouredToken)
    (h : p.tokens = xs ++ ys) :
    p.remove_tokens xs = ({ p with tokens := ys }, none) := by
  induction xs generalizing p with
  | nil =>
      simp only [Place.remove_tokens]
      simp only [List.nil_append] at h
      cases p
      simp_all
  | cons x xs ih =>
      simp only [Place.remove_tokens, h, List.cons_append, List.mem_cons,
        true_or, if_true, List.erase_cons_head]
      exact ih _ rfl

theorem find?_replacePlace_ne (ps : List Place) (nm nm' : String) (p : Place)
    (hp : p.name = nm) (hne : nm' ≠ nm) :
    (replacePlace ps nm p).find? (fun q => q.name == nm')
      = ps.find? (fun q => q.name == nm') := by
  induction ps with
  | nil => rfl
  | cons q qs ih =>
      by_cases h : q.name = nm
      · have hq : (q.name == nm) = true := by simp [h]
        have h1 : (p.name == nm') = false := by
          rw [hp]; exact beq_eq_false_iff_ne.mpr (Ne.symm hne)
        have h2 : (q.name == nm') = false := by
          rw [h]; exact beq_eq_false_iff_ne.mpr (Ne.symm hne)
        simp [replacePlace, hq, List.find?_cons, h1, h2]
      · have hq : (q.name == nm) = false := by simp [h]
        simp only [replacePlace, hq, Bool.false_eq_true, if_false]
        by_cases h3 : q.name = nm'
        · simp [List.find?_cons, h3]
        · have h4 : (q.name == nm') = false := by simp [h3]
          simp [List.find?_cons, h4, ih]

theorem find?_replacePlace_eq (ps : List Place) (nm : String) (p q : Place)
    (hq : ps.find? (fun r => r.name == nm) = some q) (hp : p.name = nm) :
    (replacePlace ps nm p).find? (fun r => r.name == nm) = some p := by
  induction ps with
  | nil => simp at hq
  | cons r rs ih =>
      by_cases h : r.name = nm
      · have hr : (r.name == nm) = true := by simp [h]
        simp [replacePlace, hr, List.find?_cons, hp]
      · have hr : (r.name == nm) = false := by simp [h]
        simp only [replacePlace, hr, Bool.false_eq_true, if_false]
        simp only [List.find?_cons, hr] at hq
        simp [List.find?_cons, hr, ih hq]

theorem lookup_setPlace_ne (s : NetState) (nm nm' : String) (p : Place)
    (hp : p.name = nm) (hne : nm' ≠ nm) :
    (s.setPlace nm p).lookupPlace nm' = s.lookupPlace nm' := by
  simp [NetState.setPlace, NetState.lookupPlace,
    find?_replacePlace_ne s.places nm nm' p hp hne]

theorem lookup_setPlace_eq (s : NetState) (nm : String) (p q : Place)
    (hq : s.lookupPlace nm = some q) (hp : p.name = nm) :
    (s.setPlace nm p).lookupPlace nm = some p := by
  simp [NetState.setPlace, NetState.lookupPlace] at hq ⊢
  exact find?_replacePlace_eq s.places nm p q hq hp

theorem placeCount_setPlace_ne (s : NetState) (nm nm' : String) (p : Place)
    (hp : p.name = nm) (hne : nm' ≠ nm) :
    (s.setPlace nm p).placeCount nm' = s.placeCount nm' := by
  simp [NetState.placeCount, lookup_setPlace_ne s nm nm' p hp hne]

theorem selectLoop_congr (ins : List (String × Nat)) (s s2 : NetState)
    (h : ∀ e ∈ ins, s2.lookupPlace e.1 = s.lookupPlace e.1) :
    selectLoop s2 ins = selectLoop s ins := by
  induction ins with
  | nil => rfl
  | cons e rest ih =>
      obtain ⟨pn, w⟩ := e
      have h1 : s2.lookupPlace pn = s.lookupPlace pn := h (pn, w) (by simp)
      have h2 := ih (fun e he => h e (List.mem_cons_of_mem _ he))
      simp [selectLoop, h1, h2]

theorem remove_selected (ins : List (String × Nat)) :
    ∀ (s : NetState) (sel : Selection) (s1 : NetState),
      selectLoop s ins = some sel →
      (ins.map Prod.fst).Nodup →
      removeStage s sel = (s1, none) →
      (∀ e ∈ ins, s1.placeCount e.1 + e.2 = s.placeCount e.1)
      ∧ (∀ nm, nm ∉ ins.map Prod.fst → s1.placeCount nm = s.placeCount nm) := by
  induction ins with
  | nil =>
      intro s sel s1 hsel hnd hrm
      simp only [selectLoop, Option.some.injEq] at hsel
      subst hsel
      simp only [removeStage, Prod.mk.injEq] at hrm
      obtain ⟨h1, -⟩ := hrm
      subst h1
      exact ⟨by simp, fun nm _ => rfl⟩
  | cons e rest ih =>
      intro s sel s1 hsel hnd hrm
      obtain ⟨pn, w⟩ := e
      simp only [selectLoop] at hsel
      rcases hL : s.lookupPlace pn with - | p
      · rw [hL] at hsel
        simp only at hsel
        split at hsel
        · exact absurd hsel (by simp)
        · rename_i hlen
          have hw : w = 0 := by simpa using hlen
          split at hsel
          · exact absurd hsel (by simp)
          · rename_i sel2 hsel2
            simp only [Option.some.injEq] at hsel
            subst hsel
            simp only [removeStage, hL, Prod.mk.injEq] at hrm
            exact absurd hrm.2 (by simp)
      · rw [hL] at hsel
        simp only [find_tokens_take] at hsel
        split at hsel
        · exact absurd hsel (by simp)
        · rename_i hlen
          have hwle : w ≤ p.tokens.length := by
            rcases Nat.le_total w p.tokens.length with h | h
            · exact h
            · simp only [List.length_take] at hlen
              omega
          have htklen : (p.tokens.take w).length = w := by
            simp [List.length_take]
            omega
          split at hsel
          · exact absurd hsel (by simp)
          · rename_i sel2 hsel2
            simp only [Option.some.injEq] at hsel
            subst hsel
            have hpname : p.name = pn := by
              have := List.find?_some hL
              simpa using this
            have hsplit : p.tokens = p.tokens.take w ++ p.tokens.drop w :=
              (List.take_append_drop w p.tokens).symm
            simp only [removeStage, hL, remove_prefix p _ _ hsplit] at hrm
            set p2 : Place := { p with tokens := p.tokens.drop w } with hp2
            have hp2name : p2.name = pn := hpname
            rw [List.map_cons] at hnd
            obtain ⟨hnd1, hnd2⟩ := List.nodup_cons.mp hnd
            have hcongr : selectLoop (s.setPlace pn p2) rest
                = selectLoop s rest := by
              refine selectLoop_congr rest s _ (fun e he => ?_)
              have : e.1 ≠ pn := by
                intro hcontra
                have hmm : e.1 ∈ rest.map Prod.fst :=
                  List.mem_map_of_mem Prod.fst he
                rw [hcontra] at hmm
                exact hnd1 hmm
              exact lookup_setPlace_ne s pn e.1 p2 hp2name this
            obtain ⟨ih1, ih2⟩ := ih (s.setPlace pn p2) sel2 s1
              (by rw [hcongr]; exact hsel2) hnd2 hrm
            have hcountpn : (s.setPlace pn p2).placeCount pn
                = p.tokens.length - w := by
              simp [NetState.placeCount, lookup_setPlace_eq s pn p2 p hL hp2name,
                Place.count, hp2]
            have hcounts : s.placeCount pn = p.tokens.length := by
              simp [NetState.placeCount, hL, Place.count]
            constructor
            · intro e he
              rcases List.mem_cons.mp he with heq | hmem
              · subst heq
                rw [ih2 pn hnd1, hcountpn, hcounts]
                omega
              · have hne : e.1 ≠ pn := by
                  intro hcontra
                  have hmm : e.1 ∈ rest.map Prod.fst :=
                    List.mem_map_of_mem Prod.fst hmem
                  rw [hcontra] at hmm
                  exact hnd1 hmm
                rw [ih1 e hmem]
                exact placeCount_setPlace_ne s pn e.1 p2 hp2name hne
            · intro nm hnm
              simp only [List.map_cons, List.mem_cons] at hnm
              push_neg at hnm
              rw [ih2 nm hnm.2]
              exact placeCount_setPlace_ne s pn nm p2 hp2name hnm.1

theorem FireResult.exists_ok (r : FireResult) (h : r.isOk = true) :
    ∃ sel n2, r = .ok sel n2 := by
  cases r with
  | ok sel n2 => exact ⟨sel, n2, rfl⟩
  | rejected reason n => simp [FireResult.isOk] at h
  | exn msg n => simp [FireResult.isOk] at h

/-- A `(True, selected)` return of `fire` decomposes into the successful
gate, selection, removal and output stages plus the `fired_count` bump. -/
theorem fire_ok_decomp {t : Transition} {net : PetriNet} {sel : Selection}
    {n2 : PetriNet} (h : t.fire net = .ok sel n2) :
    t.is_enabled net = true
  ∧ t.select_tokens net = some sel
  ∧ ∃ s1, removeStage net.state sel = (s1, none)
      ∧ outputStage sel s1 t.outputs = (n2.state, none)
      ∧ n2.transitions = bumpFired net.transitions t.name := by
  unfold Transition.fire at h
  split at h
  · cases h
  · rename_i hen
    have hen2 : t.is_enabled net = true := by
      by_cases hb : t.is_enabled net = true
      · exact hb
      · rw [Bool.not_eq_true] at hb
        rw [hb] at hen
        simp at hen
    split at h
    · cases h
    · rename_i selected hsel
      dsimp only at h
      split at h
      · cases h
      · split at h
        · cases h
        · rename_i s1 hrm
          split at h
          · cases h
          · rename_i s2 hout
            cases h
            exact ⟨hen2, hsel, s1, hrm, hout, rfl⟩

/-- C1 (amended): every call to `fire` that returns does so atomically — a
rejection hands back the untouched net, and a success removes from each input
place exactly the declared weight (no other place is touched by the removal
stage) and runs the output-production stage to completion before bumping
`fired_count`.  The claim's further demand that `fire` can never terminate
*by exception* between removal and production is refuted by the
counterexample below: when producing into a capacity-bounded output place
raises, the inputs stay consumed.  (The input names are pairwise distinct, as
they are in the source, where `inputs` is a dict.) -/
theorem C1_fire_atomicity (t : Transition) (net : PetriNet)
    (hnd : (t.inputs.map Prod.fst).Nodup) :
    (∀ r n2, t.fire net = .rejected r n2 → n2 = net)
  ∧ (∀ sel n2, t.fire net = .ok sel n2 →
      ∃ s1, removeStage net.state sel = (s1, none)
        ∧ (∀ e ∈ t.inputs, s1.placeCount e.1 + e.2 = net.state.placeCount e.1)
        ∧ (∀ nm, nm ∉ t.inputs.map Prod.fst →
            s1.placeCount nm = net.state.placeCount nm)
        ∧ outputStage sel s1 t.outputs = (n2.state, none)
        ∧ n2.transitions = bumpFired net.transitions t.name) := by
  refine ⟨fun r n2 h => fire_rejected_eq h, fun sel n2 h => ?_⟩
  obtain ⟨hen, hsel, s1, hrm, hout, htr⟩ := fire_ok_decomp h
  obtain ⟨h1, h2⟩ := remove_selected t.inputs net.state sel s1 hsel hnd hrm
  exact ⟨s1, hrm, h1, h2, hout, htr⟩

/-- Counterexample to C1 as stated: on a net whose output place `pout` is
full (capacity 0), firing the enabled transition raises the capacity error
after the input token has been removed from `pin` — the caller observes a net
with the input consumed and no output produced. -/
theorem C1_fire_atomicity_cex :
    (TCap.fire netCap).isExn = true
  ∧ (TCap.fire netCap).resNet.state.placeCount "pin" = 0
  ∧ netCap.state.placeCount "pin" = 1
  ∧ (TCap.fire netCap).resNet.state.placeCount "pout" = 0 := by
  exact ⟨rfl, rfl, rfl, rfl⟩

/-- Witness for C1 (amended) on a concrete successful firing. -/
theorem C1_fire_atomicity_witness :
    ((mkT "Tab" [("a", 1)] [("b", 1)] "").inputs.map Prod.fst).Nodup
  ∧ ∃ sel n2 s1,
      (mkT "Tab" [("a", 1)] [("b", 1)] "").fire netChain = .ok sel n2
    ∧ removeStage netChain.state sel = (s1, none)
    ∧ (∀ e ∈ (mkT "Tab" [("a", 1)] [("b", 1)] "").inputs,
        s1.placeCount e.1 + e.2 = netChain.state.placeCount e.1) := by
  refine ⟨by decide, ?_⟩
  obtain ⟨sel, n2, hE⟩ := FireResult.exists_ok _ (by decide :
    ((mkT "Tab" [("a", 1)] [("b", 1)] "").fire netChain).isOk = true)
  obtain ⟨s1, h1, h2, -, -, -⟩ :=
    (C1_fire_atomicity _ netChain (by decide)).2 sel n2 hE
  exact ⟨sel, n2, s1, hE, h1, h2⟩

/-! ### Capacity invariant preservation -/

theorem addOne_capOk (p : Place) (t : ColouredToken) (h : p.capOk = true) :
    (p.addOne t).1.capOk = true := by
  unfold Place.addOne
  split
  · rename_i c hc
    split
    · simpa [hc] using h
    · rename_i hlt
      simp only [Place.capOk, hc, List.length_append, List.length_cons,
        List.length_nil, decide_eq_true_eq]
      simp only [Place.capOk, hc, decide_eq_true_eq] at h
      omega
  · rename_i hc
    simp [Place.capOk, hc]

theorem add_tokens_capOk (p : Place) (ts : List ColouredToken)
    (h : p.capOk = true) : (p.add_tokens ts).1.capOk = true := by
  induction ts generalizing p with
  | nil => simpa [Place.add_tokens]
  | cons t ts ih =>
      simp only [Place.add_tokens]
      rcases hA : p.addOne t with ⟨q, err⟩
      have hq : q.capOk = true := by
        have := addOne_capOk p t h
        rwa [hA] at this
      cases err with
      | none => exact ih q hq
      | some e => exact hq

theorem erase_length_le (l : List ColouredToken) (t : ColouredToken) :
    (l.erase t).length ≤ l.length :=
  (List.erase_sublist t l).length_le

theorem remove_tokens_capOk (p : Place) (ts : List ColouredToken)
    (h : p.capOk = true) : (p.remove_tokens ts).1.capOk = true := by
  induction ts generalizing p with
  | nil => simpa [Place.remove_tokens]
  | cons t ts ih =>
      simp only [Place.remove_tokens]
      split
      · refine ih _ ?_
        unfold Place.capOk at h ⊢
        rcases hc : p.capacity with - | c
        · simp
        · rw [hc] at h
          simp only [decide_eq_true_eq] at h ⊢
          exact le_trans (erase_length_le p.tokens t) h
      · exact h

theorem mem_replacePlace (ps : List Place) (nm : String) (p q : Place)
    (h : q ∈ replacePlace ps nm p) : q ∈ ps ∨ q = p := by
  induction ps with
  | nil => simp [replacePlace] at h
  | cons r rs ih =>
      unfold replacePlace at h
      split at h
      · rcases List.mem_cons.mp h with h1 | h1
        · exact Or.inr h1
        · exact Or.inl (List.mem_cons_of_mem _ h1)
      · rcases List.mem_cons.mp h with h1 | h1
        · exact Or.inl (h1 ▸ List.mem_cons_self r rs)
        · rcases ih h1 with h2 | h2
          · exact Or.inl (List.mem_cons_of_mem _ h2)
          · exact Or.inr h2

theorem setPlace_capOk (s : NetState) (nm : String) (p : Place)
    (h : s.capOk = true) (hp : p.capOk = true) :
    (s.setPlace nm p).capOk = true := by
  unfold NetState.capOk at h ⊢
  rw [List.all_eq_true] at h ⊢
  intro q hq
  rcases mem_replacePlace s.places nm p q hq with h1 | h1
  · exact h q h1
  · exact h1 ▸ hp

theorem addToPlace_capOk (s : NetState) (pn : String)
    (ts : List ColouredToken) (h : s.capOk = true) :
    (addToPlace s pn ts).1.capOk = true := by
  unfold addToPlace
  rcases hL : s.lookupPlace pn with - | p
  · exact h
  · have hp : p.capOk = true := by
      unfold NetState.capOk at h
      rw [List.all_eq_true] at h
      exact h p (List.mem_of_find?_eq_some hL)
    have hq := add_tokens_capOk p ts hp
    rcases hA : p.add_tokens ts with ⟨q, err⟩
    rw [hA] at hq
    dsimp only
    rw [hA]
    cases err with
    | none => exact setPlace_capOk s pn q h hq
    | some e => exact setPlace_capOk s pn q h hq

theorem synthToken_places (nm : String) (s : NetState) :
    (synthToken nm s).2.places = s.places := by
  unfold synthToken
  split
  · rfl
  · split
    · rfl
    · split
      · rfl
      · rfl

theorem synthTokens_places (nm : String) (w : Nat) (s : NetState) :
    (synthTokens nm w s).2.places = s.places := by
  induction w generalizing s with
  | zero => rfl
  | succ v ih =>
      simp only [synthTokens]
      rcases hT : synthToken nm s with ⟨t, s1⟩
      have h1 : s1.places = s.places := by
        have := synthToken_places nm s
        rwa [hT] at this
      rcases hS : synthTokens nm v s1 with ⟨ts, s2⟩
      have h2 : s2.places = s1.places := by
        have := ih s1
        rwa [hS] at this
      simp [h2, h1]

theorem capOk_of_places_eq {s s2 : NetState} (h : s2.places = s.places)
    (hc : s.capOk = true) : s2.capOk = true := by
  unfold NetState.capOk at hc ⊢
  rw [h]
  exact hc

theorem outputStage_capOk (sel : Selection) (outs : List (String × OutVal)) :
    ∀ (s : NetState), OutsCapOk outs → s.capOk = true →
      (outputStage sel s outs).1.capOk = true := by
  induction outs with
  | nil => intro s _ h; exact h
  | cons o rest ih =>
      intro s hrules h
      obtain ⟨pn, ov⟩ := o
      have hrest : OutsCapOk rest := by
        intro pn2 f2 hmem sel2 s2 hc
        exact hrules pn2 f2 (List.mem_cons_of_mem _ hmem) sel2 s2 hc
      cases ov with
      | weight w =>
          simp only [outputStage]
          rcases hS : synthTokens pn w s with ⟨prod, s1⟩
          have h1 : s1.capOk = true := by
            refine capOk_of_places_eq ?_ h
            have := synthTokens_places pn w s
            rwa [hS] at this
          have h2 := addToPlace_capOk s1 pn prod h1
          rcases hA : addToPlace s1 pn prod with ⟨s2, err⟩
          rw [hA] at h2
          cases err with
          | none => exact ih s2 hrest h2
          | some e => exact h2
      | rule f =>
          simp only [outputStage]
          rcases hF : f sel s with ⟨s1, toks⟩
          have h1 : s1.capOk = true := by
            have := hrules pn f (List.mem_cons_self _ _) sel s h
            rwa [hF] at this
          split
          · exact ih s1 hrest h1
          · have h2 := addToPlace_capOk s1 pn toks h1
            rcases hA : addToPlace s1 pn toks with ⟨s2, err⟩
            rw [hA] at h2
            cases err with
            | none => exact ih s2 hrest h2
            | some e => exact h2

theorem removeStage_capOk (sel : Selection) :
    ∀ (s : NetState), s.capOk = true → (removeStage s sel).1.capOk = true := by
  induction sel with
  | nil => intro s h; exact h
  | cons e rest ih =>
      intro s h
      obtain ⟨pn, toks⟩ := e
      simp only [removeStage]
      rcases hL : s.lookupPlace pn with - | p
      · exact h
      · have hp : p.capOk = true := by
          unfold NetState.capOk at h
          rw [List.all_eq_true] at h
          exact h p (List.mem_of_find?_eq_some hL)
        have hq := remove_tokens_capOk p toks hp
        rcases hR : p.remove_tokens toks with ⟨p2, err⟩
        rw [hR] at hq
        dsimp only
        rw [hR]
        cases err with
        | none => exact ih _ (setPlace_capOk s pn p2 h hq)
        | some e2 => exact setPlace_capOk s pn p2 h hq

theorem bumpFired_core (ts : List Transition) (nm : String) :
    ∀ u ∈ bumpFired ts nm, ∃ v ∈ ts, u.name = v.name ∧ u.inputs = v.inputs
      ∧ u.outputs = v.outputs ∧ u.guard = v.guard := by
  induction ts with
  | nil => intro u hu; simp [bumpFired] at hu
  | cons t rest ih =>
      intro u hu
      unfold bumpFired at hu
      split at hu
      · rcases List.mem_cons.mp hu with h1 | h1
        · exact ⟨t, List.mem_cons_self t rest, by simp [h1]⟩
        · exact ⟨u, List.mem_cons_of_mem _ h1, rfl, rfl, rfl, rfl⟩
      · rcases List.mem_cons.mp hu with h1 | h1
        · exact ⟨t, List.mem_cons_self t rest, by simp [h1]⟩
        · obtain ⟨v, hv, hs⟩ := ih u h1
          exact ⟨v, List.mem_cons_of_mem _ hv, hs⟩

theorem fire_resNet_transitions (t : Transition) (net : PetriNet) :
    ((t.fire net).resNet).transitions = net.transitions
    ∨ ((t.fire net).resNet).transitions = bumpFired net.transitions t.name := by
  unfold Transition.fire
  split
  · exact Or.inl rfl
  · split
    · exact Or.inl rfl
    · dsimp only
      split
      · exact Or.inl rfl
      · split
        · exact Or.inl rfl
        · split
          · exact Or.inl rfl
          · exact Or.inr rfl

theorem fire_state_capOk (t : Transition) (net : PetriNet)
    (hrules : OutsCapOk t.outputs) (h : net.state.capOk = true) :
    ((t.fire net).resNet).state.capOk = true := by
  unfold Transition.fire
  split
  · exact h
  · split
    · exact h
    · rename_i sel hsel
      dsimp only
      split
      · exact h
      · rcases hrm : removeStage net.state sel with ⟨s1, err1⟩
        have h1 : s1.capOk = true := by
          have := removeStage_capOk sel net.state h
          rwa [hrm] at this
        cases err1 with
        | some e => exact h1
        | none =>
            dsimp only
            rcases hout : outputStage sel s1 t.outputs with ⟨s2, err2⟩
            have h2 : s2.capOk = true := by
              have := outputStage_capOk sel t.outputs s1 hrules h1
              rwa [hout] at this
            cases err2 with
            | some e => exact h2
            | none => exact h2

/-- A transition's `OutsCapOk` obligation follows from the net-wide one. -/
theorem outsCapOk_of_rulesCapOk {net : PetriNet} {t : Transition}
    (hr : RulesCapOk net) (ht : t ∈ net.transitions) : OutsCapOk t.outputs :=
  fun pn f hm sel s hc => hr t ht pn f hm sel s hc

theorem rulesCapOk_of_fire {t : Transition} {net : PetriNet}
    (hr : RulesCapOk net) :
    RulesCapOk ((t.fire net).resNet) := by
  intro u hu pn f hm sel s hc
  rcases fire_resNet_transitions t net with he | he
  · rw [he] at hu
    exact hr u hu pn f hm sel s hc
  · rw [he] at hu
    obtain ⟨v, hv, -, -, ho, -⟩ := bumpFired_core net.transitions t.name u hu
    exact hr v hv pn f (ho ▸ hm) sel s hc

theorem pickPriority_mem (ps : List String) (en : List Transition)
    (t : Transition) (h : pickPriority ps en = some t) : t ∈ en := by
  induction ps with
  | nil => simp [pickPriority] at h
  | cons p rest ih =>
      unfold pickPriority at h
      rcases hF : en.find? (fun u => u.name == p) with - | u
      · rw [hF] at h
        exact ih h
      · rw [hF] at h
        cases h
        exact List.mem_of_find?_eq_some hF

theorem choosePolicy_mem (policy : String) (en : List Transition) (r : Nat)
    (t : Transition) (h : choosePolicy policy en r = some t) : t ∈ en := by
  unfold choosePolicy at h
  split at h
  · exact List.get?_mem h
  · split at h
    · rcases hP : pickPriority ["T6", "T10", "T11", "T8", "T7"] en with - | u
      · rw [hP] at h
        exact List.get?_mem h
      · rw [hP] at h
        cases h
        exact pickPriority_mem _ en t hP
    · exact List.get?_mem h

theorem autoRunLoop_capOk (oracle : Nat → Nat) (policy : String) :
    ∀ (rem idx : Nat) (net : PetriNet), RulesCapOk net →
      net.state.capOk = true →
      ((autoRunLoop oracle policy net rem idx).net).state.capOk = true := by
  intro rem
  induction rem with
  | zero => intro idx net _ h; exact h
  | succ v ih =>
      intro idx net hr h
      unfold autoRunLoop
      dsimp only
      split
      · exact h
      · rename_i hd tl henb
        have hmemhd : hd ∈ net.transitions.filter (fun u => u.is_enabled net) := by
          rw [henb]; exact List.mem_cons_self hd tl
        set chosen :=
          (choosePolicy policy (hd :: tl) (oracle idx)).getD hd with hch
        have hmem : chosen ∈ net.transitions := by
          rcases hC : choosePolicy policy (hd :: tl) (oracle idx) with - | u
          · rw [hch, hC]
            exact List.mem_of_mem_filter hmemhd
          · rw [hch, hC]
            have := choosePolicy_mem policy (hd :: tl) (oracle idx) u hC
            rw [← henb] at this
            exact List.mem_of_mem_filter this
        have hout : OutsCapOk chosen.outputs := outsCapOk_of_rulesCapOk hr hmem
        have hfire := fire_state_capOk chosen net hout h
        have hrules2 := @rulesCapOk_of_fire chosen net hr
        rcases hF : chosen.fire net with ⟨info, n2⟩ | ⟨r2, n2⟩ | ⟨e2, n2⟩
        · rw [hF] at hfire hrules2
          exact ih (idx + 1) _ (fun u hu => hrules2 u hu) hfire
        · rw [hF] at hfire hrules2
          exact ih (idx + 1) _ (fun u hu => hrules2 u hu) hfire
        · rw [hF] at hfire hrules2
          exact hfire

theorem step_fire_state_capOk (net : PetriNet) (nm : String)
    (hr : RulesCapOk net) (h : net.state.capOk = true) :
    ((net.step_fire nm).resNet).state.capOk = true := by
  unfold PetriNet.step_fire
  rcases hT : findTransition net nm with - | tr
  · exact h
  · have hmem : tr ∈ net.transitions := List.mem_of_find?_eq_some hT
    have hfire := fire_state_capOk tr net (outsCapOk_of_rulesCapOk hr hmem) h
    dsimp only
    rcases hF : tr.fire net with ⟨info, n2⟩ | ⟨r2, n2⟩ | ⟨e2, n2⟩ <;>
      rw [hF] at hfire <;> exact hfire

/-- No entry of a weights-only output map is a computed rule. -/
theorem mkT_no_rules (nm : String) (ins outs : List (String × Nat))
    (d pn : String) (f : Selection → NetState → NetState × List ColouredToken) :
    (pn, OutVal.rule f) ∉ (mkT nm ins outs d).outputs := by
  simp only [mkT]
  intro h
  rcases List.mem_map.mp h with ⟨e, -, he⟩
  injection he with h1 h2
  exact OutVal.noConfusion h2

/-- C4: the capacity invariant `count ≤ capacity` (trivially true of an
empty place) is preserved by every engine operation — `add_tokens`,
`remove_tokens`, `fire` (whatever its outcome, including a raise),
`step_fire` and `auto_run` — provided the client-supplied output rules of the
net preserve it (they are arbitrary callables; all rules of the repository
only add tokens through `add_tokens` of unbounded places).  A single
addition to a full place fails with the capacity `ValueError` and changes
nothing, rather than silently truncating. -/
theorem C4_capacity_invariant :
    (∀ nm cap, Place.capOk { name := nm, tokens := [], capacity := cap } = true)
  ∧ (∀ (p : Place) ts, p.capOk = true → (p.add_tokens ts).1.capOk = true)
  ∧ (∀ (p : Place) ts, p.capOk = true → (p.remove_tokens ts).1.capOk = true)
  ∧ (∀ (p : Place) t c, p.capacity = some c → c ≤ p.tokens.length →
      p.addOne t = (p, some ("Place " ++ p.name ++ " capacity exceeded")))
  ∧ (∀ (net : PetriNet) t, t ∈ net.transitions → RulesCapOk net →
      net.state.capOk = true → ((t.fire net).resNet).state.capOk = true)
  ∧ (∀ (net : PetriNet) nm, RulesCapOk net → net.state.capOk = true →
      ((net.step_fire nm).resNet).state.capOk = true)
  ∧ (∀ (net : PetriNet) steps policy oracle, RulesCapOk net →
      net.state.capOk = true →
      ((net.auto_run steps policy oracle).net).state.capOk = true) := by
  refine ⟨?_, add_tokens_capOk, remove_tokens_capOk, ?_, ?_, ?_, ?_⟩
  · intro nm cap
    cases cap <;> simp [Place.capOk]
  · intro p t c hc hlen
    unfold Place.addOne
    rw [hc]
    simp [hlen]
  · intro net t ht hr h
    exact fire_state_capOk t net (outsCapOk_of_rulesCapOk hr ht) h
  · exact step_fire_state_capOk
  · intro net steps policy oracle hr h
    exact autoRunLoop_capOk oracle policy steps 0 net hr h

/-- Witness for C4: the invariant on a concrete capacity-bounded net after a
concrete run. -/
theorem C4_capacity_invariant_witness :
    Place.capOk { name := "p", tokens := [], capacity := some 5 } = true
  ∧ ((netCap.auto_run 3 "random" (fun _ => 0)).net).state.capOk = true := by
  have hrules : RulesCapOk netCap := by
    intro t ht pn f hm
    have ht2 : t = TCap := by simpa [netCap] using ht
    rw [ht2] at hm
    exact absurd hm (mkT_no_rules "T" [("pin", 1)] [("pout", 1)] "" pn f)
  exact ⟨(C4_capacity_invariant.1) "p" (some 5),
    (C4_capacity_invariant.2.2.2.2.2.2) netCap 3 "random" (fun _ => 0) hrules
      (by decide)⟩

theorem choosePolicy_unknown_eq (policy : String) (en : List Transition)
    (r : Nat) (h1 : policy ≠ "random") (h2 : policy ≠ "prioritise") :
    choosePolicy policy en r = choosePolicy "random" en r := by
  unfold choosePolicy
  rw [beq_eq_false_iff_ne.mpr h1, beq_eq_false_iff_ne.mpr h2]
  simp

theorem autoRunLoop_unknown_policy (oracle : Nat → Nat) (policy : String)
    (h1 : policy ≠ "random") (h2 : policy ≠ "prioritise") :
    ∀ (rem idx : Nat) (net : PetriNet),
      autoRunLoop oracle policy net rem idx
        = autoRunLoop oracle "random" net rem idx := by
  intro rem
  induction rem with
  | zero => intro idx net; rfl
  | succ v ih =>
      intro idx net
      unfold autoRunLoop
      dsimp only
      split
      · rfl
      · rename_i hd tl henb
        rw [choosePolicy_unknown_eq policy (hd :: tl) (oracle idx) h1 h2]
        split
        · rfl
        · simp only [ih]
        · simp only [ih]

/-- C9: `auto_run` under any policy string other than `random` and
`prioritise` raises no policy error and behaves exactly like the `random`
policy — the unrecognized-policy branch is the same `random.choice(enabled)`
call, so the two runs coincide step by step for the same stream of choice
draws (uniformity of the underlying `random.choice` is a property of
Python's RNG, outside the engine). -/
theorem C9_unknown_policy_is_random (net : PetriNet) (steps : Nat)
    (policy : String) (oracle : Nat → Nat)
    (h1 : policy ≠ "random") (h2 : policy ≠ "prioritise") :
    net.auto_run steps policy oracle = net.auto_run steps "random" oracle :=
  autoRunLoop_unknown_policy oracle policy h1 h2 steps 0 net

/-- Witness for C9 with the policy string `greedy` on a concrete net. -/
theorem C9_unknown_policy_is_random_witness :
    netSrc.auto_run 2 "greedy" (fun _ => 0)
      = netSrc.auto_run 2 "random" (fun _ => 0) :=
  C9_unknown_policy_is_random netSrc 2 "greedy" (fun _ => 0)
    (by decide) (by decide)

/-! ### Place-roster (shape) preservation -/

theorem find?_name_isSome_of_shape (nm : String) :
    ∀ (l1 l2 : List Place), l1.map placeShape = l2.map placeShape →
      (l1.find? (fun p => p.name == nm)).isSome
        = (l2.find? (fun p => p.name == nm)).isSome := by
  intro l1
  induction l1 with
  | nil =>
      intro l2 h
      cases l2 with
      | nil => rfl
      | cons q l2b => simp at h
  | cons p l1b ih =>
      intro l2 h
      cases l2 with
      | nil => simp at h
      | cons q l2b =>
          simp only [List.map_cons, List.cons.injEq] at h
          obtain ⟨h1, h2⟩ := h
          have hname : p.name = q.name := congrArg Prod.fst h1
          simp only [List.find?_cons]
          rw [hname]
          cases hq : (q.name == nm)
          · simp [ih l2b h2]
          · simp

theorem lookup_isSome_of_shape {s2 s : NetState} (h : s2.shape = s.shape)
    (nm : String) :
    (s2.lookupPlace nm).isSome = (s.lookupPlace nm).isSome :=
  find?_name_isSome_of_shape nm s2.places s.places h

theorem noCaps_shape_eq (s : NetState) :
    s.noCaps = s.shape.all (fun e => e.2 == none) := by
  unfold NetState.noCaps NetState.shape
  induction s.places with
  | nil => rfl
  | cons p ps ih => simp [List.all_cons, ih, placeShape]

theorem noCaps_of_shape {s2 s : NetState} (h : s2.shape = s.shape) :
    s2.noCaps = s.noCaps := by
  rw [noCaps_shape_eq, noCaps_shape_eq, h]

theorem addOne_shape (p : Place) (t : ColouredToken) :
    placeShape (p.addOne t).1 = placeShape p := by
  unfold Place.addOne
  split
  · split
    · rfl
    · rfl
  · rfl

theorem add_tokens_shape (ts : List ColouredToken) :
    ∀ (p : Place), placeShape (p.add_tokens ts).1 = placeShape p := by
  induction ts with
  | nil => intro p; rfl
  | cons t ts ih =>
      intro p
      simp only [Place.add_tokens]
      have ha := addOne_shape p t
      rcases hA : p.addOne t with ⟨q, err⟩
      rw [hA] at ha
      cases err with
      | none => exact (ih q).trans ha
      | some e => exact ha

theorem remove_tokens_shape (ts : List ColouredToken) :
    ∀ (p : Place), placeShape (p.remove_tokens ts).1 = placeShape p := by
  induction ts with
  | nil => intro p; rfl
  | cons t ts ih =>
      intro p
      simp only [Place.remove_tokens]
      split
      · exact ih _
      · rfl

theorem replacePlace_shape (nm : String) (p q : Place)
    (hs : placeShape p = placeShape q) :
    ∀ (l : List Place), l.find? (fun r => r.name == nm) = some q →
      (replacePlace l nm p).map placeShape = l.map placeShape := by
  intro l
  induction l with
  | nil => intro h; simp at h
  | cons r rs ih =>
      intro h
      by_cases hr : r.name = nm
      · have hb : (r.name == nm) = true := by simp [hr]
        simp only [List.find?_cons, hb, Option.some.injEq] at h
        unfold replacePlace
        rw [if_pos hb]
        simp only [List.map_cons]
        rw [hs, h]
      · have hb : (r.name == nm) = false := by simp [hr]
        simp only [List.find?_cons, hb] at h
        unfold replacePlace
        rw [if_neg (by simp [hb])]
        simp only [List.map_cons]
        rw [ih h]

theorem setPlace_shape (s : NetState) (nm : String) (p q : Place)
    (hL : s.lookupPlace nm = some q) (hs : placeShape p = placeShape q) :
    (s.setPlace nm p).shape = s.shape :=
  replacePlace_shape nm p q hs s.places hL

theorem addToPlace_shape (s : NetState) (pn : String)
    (ts : List ColouredToken) : (addToPlace s pn ts).1.shape = s.shape := by
  unfold addToPlace
  rcases hL : s.lookupPlace pn with - | p
  · rfl
  · dsimp only
    have ha := add_tokens_shape ts p
    rcases hA : p.add_tokens ts with ⟨q, err⟩
    rw [hA] at ha
    cases err with
    | none => exact setPlace_shape s pn q p hL ha
    | some e => exact setPlace_shape s pn q p hL ha

theorem removeStage_shape (sel : Selection) :
    ∀ (s : NetState), (removeStage s sel).1.shape = s.shape := by
  induction sel with
  | nil => intro s; rfl
  | cons e rest ih =>
      intro s
      obtain ⟨pn, toks⟩ := e
      simp only [removeStage]
      rcases hL : s.lookupPlace pn with - | p
      · rfl
      · dsimp only
        have hr := remove_tokens_shape toks p
        rcases hR : p.remove_tokens toks with ⟨p2, err⟩
        rw [hR] at hr
        cases err with
        | none => exact (ih _).trans (setPlace_shape s pn p2 p hL hr)
        | some e2 => exact setPlace_shape s pn p2 p hL hr

theorem outputStage_shape (sel : Selection) (outs : List (String × OutVal)) :
    ∀ (s : NetState), OutsShapeOk outs →
      (outputStage sel s outs).1.shape = s.shape := by
  induction outs with
  | nil => intro s _; rfl
  | cons o rest ih =>
      intro s hrules
      obtain ⟨pn, ov⟩ := o
      have hrest : OutsShapeOk rest :=
        fun pn2 f2 hm sel2 s2 => hrules pn2 f2 (List.mem_cons_of_mem _ hm) sel2 s2
      cases ov with
      | weight w =>
          simp only [outputStage]
          rcases hS : synthTokens pn w s with ⟨prod, s1⟩
          have h1 : s1.shape = s.shape := by
            unfold NetState.shape
            have := synthTokens_places pn w s
            rw [hS] at this
            rw [this]
          have h2 := addToPlace_shape s1 pn prod
          rcases hA : addToPlace s1 pn prod with ⟨s2, err⟩
          rw [hA] at h2
          cases err with
          | none => exact (ih s2 hrest).trans (h2.trans h1)
          | some e => exact h2.trans h1
      | rule f =>
          simp only [outputStage]
          rcases hF : f sel s with ⟨s1, toks⟩
          have h1 : s1.shape = s.shape := by
            have := hrules pn f (List.mem_cons_self _ _) sel s
            rw [hF] at this
            exact this
          split
          · exact (ih s1 hrest).trans h1
          · have h2 := addToPlace_shape s1 pn toks
            rcases hA : addToPlace s1 pn toks with ⟨s2, err⟩
            rw [hA] at h2
            cases err with
            | none => exact (ih s2 hrest).trans (h2.trans h1)
            | some e => exact h2.trans h1

theorem fire_resNet_shape (t : Transition) (net : PetriNet)
    (hrules : OutsShapeOk t.outputs) :
    ((t.fire net).resNet).state.shape = net.state.shape := by
  unfold Transition.fire
  split
  · rfl
  · split
    · rfl
    · rename_i sel hsel
      dsimp only
      split
      · rfl
      · rcases hrm : removeStage net.state sel with ⟨s1, err1⟩
        have h1 : s1.shape = net.state.shape := by
          have := removeStage_shape sel net.state
          rwa [hrm] at this
        cases err1 with
        | some e => exact h1
        | none =>
            dsimp only
            rcases hout : outputStage sel s1 t.outputs with ⟨s2, err2⟩
            have h2 : s2.shape = s1.shape := by
              have := outputStage_shape sel t.outputs s1 hrules
              rwa [hout] at this
            cases err2 with
            | some e => exact h2.trans h1
            | none => exact h2.trans h1

/-! ### Exception-freedom under the static safety conditions -/

theorem add_tokens_nocap (ts : List ColouredToken) :
    ∀ (p : Place), p.capacity = none →
      p.add_tokens ts = ({ p with tokens := p.tokens ++ ts }, none) := by
  induction ts with
  | nil => intro p _; simp [Place.add_tokens]
  | cons t ts ih =>
      intro p hc
      simp only [Place.add_tokens, Place.addOne, hc]
      rw [ih { name := p.name, tokens := p.tokens ++ [t], capacity := none } rfl]
      simp

theorem addToPlace_noerr (s : NetState) (pn : String) (ts : List ColouredToken)
    (hsome : (s.lookupPlace pn).isSome = true) (hnc : s.noCaps = true) :
    (addToPlace s pn ts).2 = none := by
  unfold addToPlace
  rcases hL : s.lookupPlace pn with - | p
  · rw [hL] at hsome
    simp at hsome
  · dsimp only
    have hpc : p.capacity = none := by
      unfold NetState.noCaps at hnc
      rw [List.all_eq_true] at hnc
      have := hnc p (List.mem_of_find?_eq_some hL)
      simpa using this
    rw [add_tokens_nocap ts p hpc]

theorem removeStage_of_select (ins : List (String × Nat)) :
    ∀ (s : NetState) (sel : Selection),
      selectLoop s ins = some sel →
      (∀ e ∈ ins, (s.lookupPlace e.1).isSome = true) →
      (ins.map Prod.fst).Nodup →
      (removeStage s sel).2 = none := by
  induction ins with
  | nil =>
      intro s sel hsel _ _
      simp only [selectLoop, Option.some.injEq] at hsel
      subst hsel
      rfl
  | cons e rest ih =>
      intro s sel hsel hreg hnd
      obtain ⟨pn, w⟩ := e
      simp only [selectLoop] at hsel
      rcases hL : s.lookupPlace pn with - | p
      · have := hreg (pn, w) (List.mem_cons_self _ _)
        rw [hL] at this
        simp at this
      · rw [hL] at hsel
        simp only [find_tokens_take] at hsel
        split at hsel
        · exact absurd hsel (by simp)
        · rename_i hlen
          split at hsel
          · exact absurd hsel (by simp)
          · rename_i sel2 hsel2
            simp only [Option.some.injEq] at hsel
            subst hsel
            have hwle : w ≤ p.tokens.length := by
              simp only [List.length_take] at hlen
              omega
            have hpname : p.name = pn := by
              have := List.find?_some hL
              simpa using this
            have hsplit : p.tokens = p.tokens.take w ++ p.tokens.drop w :=
              (List.take_append_drop w p.tokens).symm
            simp only [removeStage, hL, remove_prefix p _ _ hsplit]
            set p2 : Place := { p with tokens := p.tokens.drop w } with hp2
            have hp2name : p2.name = pn := hpname
            rw [List.map_cons] at hnd
            obtain ⟨hnd1, hnd2⟩ := List.nodup_cons.mp hnd
            have hcongr : selectLoop (s.setPlace pn p2) rest
                = selectLoop s rest := by
              refine selectLoop_congr rest s _ (fun e he => ?_)
              have : e.1 ≠ pn := by
                intro hcontra
                have hmm : e.1 ∈ rest.map Prod.fst :=
                  List.mem_map_of_mem Prod.fst he
                rw [hcontra] at hmm
                exact hnd1 hmm
              exact lookup_setPlace_ne s pn e.1 p2 hp2name this
            refine ih (s.setPlace pn p2) sel2 (by rw [hcongr]; exact hsel2)
              (fun e he => ?_) hnd2
            have hne : e.1 ≠ pn := by
              intro hcontra
              have hmm : e.1 ∈ rest.map Prod.fst :=
                List.mem_map_of_mem Prod.fst he
              rw [hcontra] at hmm
              exact hnd1 hmm
            rw [lookup_setPlace_ne s pn e.1 p2 hp2name hne]
            exact hreg e (List.mem_cons_of_mem _ he)

theorem outputStage_noerr (sel : Selection) (outs : List (String × OutVal)) :
    ∀ (s : NetState), OutsShapeOk outs →
      (∀ e ∈ outs, (s.lookupPlace e.1).isSome = true) →
      s.noCaps = true →
      (outputStage sel s outs).2 = none := by
  induction outs with
  | nil => intro s _ _ _; rfl
  | cons o rest ih =>
      intro s hrules hreg hnc
      obtain ⟨pn, ov⟩ := o
      have hrest : OutsShapeOk rest :=
        fun pn2 f2 hm sel2 s2 => hrules pn2 f2 (List.mem_cons_of_mem _ hm) sel2 s2
      cases ov with
      | weight w =>
          simp only [outputStage]
          rcases hS : synthTokens pn w s with ⟨prod, s1⟩
          have hpl : s1.places = s.places := by
            have := synthTokens_places pn w s
            rwa [hS] at this
          have hsh1 : s1.shape = s.shape := by
            unfold NetState.shape
            rw [hpl]
          have hs1 : (s1.lookupPlace pn).isSome = true := by
            rw [lookup_isSome_of_shape hsh1]
            exact hreg (pn, OutVal.weight w) (List.mem_cons_self _ _)
          have hnc1 : s1.noCaps = true := by
            rw [noCaps_of_shape hsh1]; exact hnc
          have hne := addToPlace_noerr s1 pn prod hs1 hnc1
          have hsha := addToPlace_shape s1 pn prod
          rcases hA : addToPlace s1 pn prod with ⟨s2, err⟩
          rw [hA] at hne hsha
          cases err with
          | some e => exact absurd hne (by simp)
          | none =>
              have hsh2 : s2.shape = s.shape := hsha.trans hsh1
              refine ih s2 hrest (fun e he => ?_) ?_
              · rw [lookup_isSome_of_shape hsh2]
                exact hreg e (List.mem_cons_of_mem _ he)
              · rw [noCaps_of_shape hsh2]; exact hnc
      | rule f =>
          simp only [outputStage]
          rcases hF : f sel s with ⟨s1, toks⟩
          have hsh1 : s1.shape = s.shape := by
            have := hrules pn f (List.mem_cons_self _ _) sel s
            rw [hF] at this
            exact this
          have hs1 : ∀ e, e ∈ ((pn, OutVal.rule f) :: rest) →
              (s1.lookupPlace e.1).isSome = true := by
            intro e he
            rw [lookup_isSome_of_shape hsh1]
            exact hreg e he
          have hnc1 : s1.noCaps = true := by
            rw [noCaps_of_shape hsh1]; exact hnc
          split
          · exact ih s1 hrest (fun e he => hs1 e (List.mem_cons_of_mem _ he)) hnc1
          · have hne := addToPlace_noerr s1 pn toks
              (hs1 (pn, OutVal.rule f) (List.mem_cons_self _ _)) hnc1
            have hsha := addToPlace_shape s1 pn toks
            rcases hA : addToPlace s1 pn toks with ⟨s2, err⟩
            rw [hA] at hne hsha
            cases err with
            | some e => exact absurd hne (by simp)
            | none =>
                have hsh2 : s2.shape = s.shape := hsha.trans hsh1
                refine ih s2 hrest (fun e he => ?_) ?_
                · rw [lookup_isSome_of_shape hsh2]
                  exact hreg e (List.mem_cons_of_mem _ he)
                · rw [noCaps_of_shape hsh2]; exact hnc

theorem fire_no_exn (t : Transition) (net : PetriNet)
    (hin : ∀ e ∈ t.inputs, (net.state.lookupPlace e.1).isSome = true)
    (hout : ∀ e ∈ t.outputs, (net.state.lookupPlace e.1).isSome = true)
    (hnd : (t.inputs.map Prod.fst).Nodup)
    (hrules : OutsShapeOk t.outputs)
    (hnc : net.state.noCaps = true) :
    (t.fire net).isExn = false := by
  unfold Transition.fire
  split
  · rfl
  · split
    · rfl
    · rename_i sel hsel
      dsimp only
      split
      · rfl
      · have hrm2 := removeStage_of_select t.inputs net.state sel hsel hin hnd
        have hsh1 := removeStage_shape sel net.state
        rcases hrm : removeStage net.state sel with ⟨s1, err1⟩
        rw [hrm] at hrm2 hsh1
        cases err1 with
        | some e => exact absurd hrm2 (by simp)
        | none =>
            dsimp only
            have hout2 := outputStage_noerr sel t.outputs s1 hrules
              (fun e he => by
                rw [lookup_isSome_of_shape hsh1]
                exact hout e he)
              (by rw [noCaps_of_shape hsh1]; exact hnc)
            rcases hos : outputStage sel s1 t.outputs with ⟨s2, err2⟩
            rw [hos] at hout2
            cases err2 with
            | some e => exact absurd hout2 (by simp)
            | none => rfl

theorem fire_transitions_corr (t : Transition) (net : PetriNet) :
    ∀ u ∈ ((t.fire net).resNet).transitions, ∃ v ∈ net.transitions,
      u.inputs = v.inputs ∧ u.outputs = v.outputs := by
  intro u hu
  rcases fire_resNet_transitions t net with he | he
  · rw [he] at hu
    exact ⟨u, hu, rfl, rfl⟩
  · rw [he] at hu
    obtain ⟨v, hv, -, hi, ho, -⟩ := bumpFired_core net.transitions t.name u hu
    exact ⟨v, hv, hi, ho⟩

theorem safe_transport {net2 net : PetriNet}
    (hshape : net2.state.shape = net.state.shape)
    (htrans : ∀ u ∈ net2.transitions, ∃ v ∈ net.transitions,
        u.inputs = v.inputs ∧ u.outputs = v.outputs)
    (hs : net.Safe) : net2.Safe := by
  obtain ⟨hnc, hreg, hrules, hnod⟩ := hs
  refine ⟨?_, ?_, ?_, ?_⟩
  · rw [noCaps_of_shape hshape]
    exact hnc
  · unfold PetriNet.registered at hreg ⊢
    rw [List.all_eq_true] at hreg ⊢
    intro u hu
    obtain ⟨v, hv, hi, ho⟩ := htrans u hu
    have hregv := hreg v hv
    rw [Bool.and_eq_true, List.all_eq_true, List.all_eq_true] at hregv ⊢
    obtain ⟨hv1, hv2⟩ := hregv
    constructor
    · intro e he
      rw [lookup_isSome_of_shape hshape]
      exact hv1 e (hi ▸ he)
    · intro e he
      rw [lookup_isSome_of_shape hshape]
      exact hv2 e (ho ▸ he)
  · intro u hu pn f hm sel s
    obtain ⟨v, hv, -, ho⟩ := htrans u hu
    exact hrules v hv pn f (ho ▸ hm) sel s
  · intro u hu
    obtain ⟨v, hv, hi, -⟩ := htrans u hu
    rw [hi]
    exact hnod v hv

theorem safe_parts {net : PetriNet} {t : Transition} (hs : net.Safe)
    (ht : t ∈ net.transitions) :
    (∀ e ∈ t.inputs, (net.state.lookupPlace e.1).isSome = true)
  ∧ (∀ e ∈ t.outputs, (net.state.lookupPlace e.1).isSome = true)
  ∧ (t.inputs.map Prod.fst).Nodup
  ∧ OutsShapeOk t.outputs
  ∧ net.state.noCaps = true := by
  obtain ⟨hnc, hreg, hrules, hnod⟩ := hs
  unfold PetriNet.registered at hreg
  rw [List.all_eq_true] at hreg
  have h := hreg t ht
  rw [Bool.and_eq_true, List.all_eq_true, List.all_eq_true] at h
  exact ⟨h.1, h.2, hnod t ht,
    fun pn f hm sel s => hrules t ht pn f hm sel s, hnc⟩

theorem safe_fire_no_exn {net : PetriNet} {t : Transition} (hs : net.Safe)
    (ht : t ∈ net.transitions) : (t.fire net).isExn = false := by
  obtain ⟨h1, h2, h3, h4, h5⟩ := safe_parts hs ht
  exact fire_no_exn t net h1 h2 h3 h4 h5

theorem safe_fire_preserved {net : PetriNet} {t : Transition} (hs : net.Safe)
    (ht : t ∈ net.transitions) : ((t.fire net).resNet).Safe := by
  have hrules := hs.2.2.1
  exact safe_transport
    (fire_resNet_shape t net (fun pn f hm sel s => hrules t ht pn f hm sel s))
    (fire_transitions_corr t net) hs

/-! ### Clock preservation through `fire` -/

theorem setPlace_global_time (s : NetState) (nm : String) (p : Place) :
    (s.setPlace nm p).global_time = s.global_time := rfl

theorem addToPlace_global_time (s : NetState) (pn : String)
    (ts : List ColouredToken) :
    (addToPlace s pn ts).1.global_time = s.global_time := by
  unfold addToPlace
  rcases hL : s.lookupPlace pn with - | p
  · rfl
  · dsimp only
    rcases hA : p.add_tokens ts with ⟨p2, err⟩
    cases err with
    | none => rfl
    | some e => rfl

theorem removeStage_global_time (sel : Selection) :
    ∀ (s : NetState), (removeStage s sel).1.global_time = s.global_time := by
  induction sel with
  | nil => intro s; rfl
  | cons e rest ih =>
      intro s
      obtain ⟨pn, toks⟩ := e
      simp only [removeStage]
      rcases hL : s.lookupPlace pn with - | p
      · rfl
      · dsimp only
        rcases hR : p.remove_tokens toks with ⟨p2, err⟩
        cases err with
        | none => exact ih _
        | some e2 => rfl

theorem synthToken_global_time (nm : String) (s : NetState) :
    (synthToken nm s).2.global_time = s.global_time := by
  unfold synthToken
  split
  · rfl
  · split
    · rfl
    · split
      · rfl
      · rfl

theorem synthTokens_global_time (nm : String) (w : Nat) :
    ∀ (s : NetState), (synthTokens nm w s).2.global_time = s.global_time := by
  induction w with
  | zero => intro s; rfl
  | succ v ih =>
      intro s
      simp only [synthTokens]
      have h1 := synthToken_global_time nm s
      rcases hT : synthToken nm s with ⟨tk, s1⟩
      rw [hT] at h1
      have h2 := ih s1
      rcases hS : synthTokens nm v s1 with ⟨tks, s2⟩
      rw [hS] at h2
      simpa using h2.trans h1

theorem outputStage_global_time (sel : Selection)
    (outs : List (String × OutVal)) :
    ∀ (s : NetState), OutsClockOk outs →
      (outputStage sel s outs).1.global_time = s.global_time := by
  induction outs with
  | nil => intro s _; rfl
  | cons o rest ih =>
      intro s hclock
      obtain ⟨pn, ov⟩ := o
      have hrest : OutsClockOk rest :=
        fun pn2 f2 hm sel2 s2 => hclock pn2 f2 (List.mem_cons_of_mem _ hm) sel2 s2
      cases ov with
      | weight w =>
          simp only [outputStage]
          have h1 := synthTokens_global_time pn w s
          rcases hS : synthTokens pn w s with ⟨prod, s1⟩
          rw [hS] at h1
          have h2 := addToPlace_global_time s1 pn prod
          rcases hA : addToPlace s1 pn prod with ⟨s2, err⟩
          rw [hA] at h2
          cases err with
          | none => exact (ih s2 hrest).trans (h2.trans h1)
          | some e => exact h2.trans h1
      | rule f =>
          simp only [outputStage]
          have h1 := hclock pn f (List.mem_cons_self _ _) sel s
          rcases hF : f sel s with ⟨s1, toks⟩
          rw [hF] at h1
          split
          · exact (ih s1 hrest).trans h1
          · have h2 := addToPlace_global_time s1 pn toks
            rcases hA : addToPlace s1 pn toks with ⟨s2, err⟩
            rw [hA] at h2
            cases err with
            | none => exact (ih s2 hrest).trans (h2.trans h1)
            | some e => exact h2.trans h1

theorem fire_global_time (t : Transition) (net : PetriNet)
    (hclock : OutsClockOk t.outputs) :
    ((t.fire net).resNet).state.global_time = net.state.global_time := by
  unfold Transition.fire
  split
  · rfl
  · split
    · rfl
    · rename_i sel hsel
      dsimp only
      split
      · rfl
      · have h1 := removeStage_global_time sel net.state
        rcases hrm : removeStage net.state sel with ⟨s1, err1⟩
        rw [hrm] at h1
        cases err1 with
        | some e => exact h1
        | none =>
            dsimp only
            have h2 := outputStage_global_time sel t.outputs s1 hclock
            rcases hos : outputStage sel s1 t.outputs with ⟨s2, err2⟩
            rw [hos] at h2
            cases err2 with
            | some e => exact h2.trans h1
            | none => exact h2.trans h1

theorem rulesClockOk_of_corr {net2 net : PetriNet}
    (htrans : ∀ u ∈ net2.transitions, ∃ v ∈ net.transitions,
        u.inputs = v.inputs ∧ u.outputs = v.outputs)
    (h : RulesClockOk net) : RulesClockOk net2 := by
  intro u hu
  obtain ⟨v, hv, -, ho⟩ := htrans u hu
  rw [ho]
  exact h v hv

theorem tickStat_safe (n2 : PetriNet) (nm : String) (hs : n2.Safe) :
    (tickStat n2 nm).Safe :=
  safe_transport rfl (fun u hu => ⟨u, hu, rfl, rfl⟩) hs

theorem tickOnly_safe (n2 : PetriNet) (hs : n2.Safe) : (tickOnly n2).Safe :=
  safe_transport rfl (fun u hu => ⟨u, hu, rfl, rfl⟩) hs

theorem tickStat_clock (n2 : PetriNet) (nm : String) (hc : RulesClockOk n2) :
    RulesClockOk (tickStat n2 nm) := fun u hu => hc u hu

theorem tickOnly_clock (n2 : PetriNet) (hc : RulesClockOk n2) :
    RulesClockOk (tickOnly n2) := fun u hu => hc u hu

theorem autoRunLoop_safe (oracle : Nat → Nat) (policy : String) :
    ∀ (rem idx : Nat) (net : PetriNet), net.Safe → RulesClockOk net →
      (autoRunLoop oracle policy net rem idx).error = none
    ∧ (autoRunLoop oracle policy net rem idx).ticks ≤ rem
    ∧ (autoRunLoop oracle policy net rem idx).net.state.global_time
        = net.state.global_time + (autoRunLoop oracle policy net rem idx).ticks
    ∧ ((autoRunLoop oracle policy net rem idx).ticks < rem →
        (autoRunLoop oracle policy net rem idx).deadlockStep
          = some (idx + (autoRunLoop oracle policy net rem idx).ticks)) := by
  intro rem
  induction rem with
  | zero =>
      intro idx net _ _
      exact ⟨rfl, Nat.le_refl 0, by simp [autoRunLoop], fun h => absurd h (by omega)⟩
  | succ v ih =>
      intro idx net hs hc
      unfold autoRunLoop
      dsimp only
      split
      · refine ⟨rfl, ?_, ?_, fun _ => ?_⟩
        · show (0 : Nat) ≤ v + 1
          omega
        · show net.state.global_time = net.state.global_time + 0
          omega
        · show some idx = some (idx + 0)
          simp
      · rename_i hd tl henb
        have hmemhd : hd ∈ net.transitions.filter (fun u => u.is_enabled net) := by
          rw [henb]
          exact List.mem_cons_self hd tl
        have hmem : (choosePolicy policy (hd :: tl) (oracle idx)).getD hd
            ∈ net.transitions := by
          rcases hC : choosePolicy policy (hd :: tl) (oracle idx) with - | u
          · simpa [hC] using List.mem_of_mem_filter hmemhd
          · have hm2 := choosePolicy_mem policy (hd :: tl) (oracle idx) u hC
            rw [← henb] at hm2
            simpa [hC] using List.mem_of_mem_filter hm2
        set chosen := (choosePolicy policy (hd :: tl) (oracle idx)).getD hd
          with hch
        have hnoexn := safe_fire_no_exn hs hmem
        have hsafe2 := safe_fire_preserved hs hmem
        have hclock2 := rulesClockOk_of_corr (fire_transitions_corr chosen net) hc
        have htime := fire_global_time chosen net (hc chosen hmem)
        rcases hF : chosen.fire net with ⟨info, n2⟩ | ⟨r2, n2⟩ | ⟨e2, n2⟩
        · rw [hF] at hsafe2 hclock2 htime
          dsimp only [FireResult.resNet] at hsafe2 hclock2 htime
          obtain ⟨i1, i2, i3, i4⟩ := ih (idx + 1) (tickStat n2 chosen.name)
            (tickStat_safe n2 chosen.name hsafe2)
            (tickStat_clock n2 chosen.name hclock2)
          dsimp only
          refine ⟨i1, by omega, ?_, ?_⟩
          · rw [i3]
            have h5 : (tickStat n2 chosen.name).state.global_time
                = n2.state.global_time + 1 := rfl
            omega
          · intro hkk
            have h6 := i4 (by omega)
            rw [h6]
            congr 1
            omega
        · rw [hF] at hsafe2 hclock2 htime
          dsimp only [FireResult.resNet] at hsafe2 hclock2 htime
          obtain ⟨i1, i2, i3, i4⟩ := ih (idx + 1) (tickOnly n2)
            (tickOnly_safe n2 hsafe2) (tickOnly_clock n2 hclock2)
          dsimp only
          refine ⟨i1, by omega, ?_, ?_⟩
          · rw [i3]
            have h5 : (tickOnly n2).state.global_time
                = n2.state.global_time + 1 := rfl
            omega
          · intro hkk
            have h6 := i4 (by omega)
            rw [h6]
            congr 1
            omega
        · rw [hF] at hnoexn
          simp [FireResult.isExn] at hnoexn

theorem choosePolicy_getD_singleton (policy : String) (r : Nat)
    (t : Transition) : (choosePolicy policy [t] r).getD t = t := by
  rcases hC : choosePolicy policy [t] r with - | u
  · rfl
  · have hm := choosePolicy_mem policy [t] r u hC
    simp at hm
    simp [hm]

theorem outputStage_src (sel : Selection) (s : NetState) (p : Place)
    (hL : s.lookupPlace "P" = some p) (hc : p.capacity = none) :
    outputStage sel s [("P", OutVal.weight 1)]
      = (({ s with uuid_ctr := s.uuid_ctr + 1 } : NetState).setPlace "P"
          { p with tokens := p.tokens ++
              [{ ttype := "material", batch_id := "U" ++ toString s.uuid_ctr,
                 mass := 1, T := none, purity := none,
                 time_in_process := 0 }] }, none) := by
  have hsyn : synthTokens "P" 1 s
      = ([{ ttype := "material", batch_id := "U" ++ toString s.uuid_ctr,
            mass := 1, T := none, purity := none, time_in_process := 0 }],
         { s with uuid_ctr := s.uuid_ctr + 1 }) := rfl
  have hL1 : ({ s with uuid_ctr := s.uuid_ctr + 1 } : NetState).lookupPlace "P"
      = some p := hL
  have hadd : addToPlace { s with uuid_ctr := s.uuid_ctr + 1 } "P"
      [{ ttype := "material", batch_id := "U" ++ toString s.uuid_ctr,
         mass := 1, T := none, purity := none, time_in_process := 0 }]
      = (({ s with uuid_ctr := s.uuid_ctr + 1 } : NetState).setPlace "P"
          { p with tokens := p.tokens ++
              [{ ttype := "material", batch_id := "U" ++ toString s.uuid_ctr,
                 mass := 1, T := none, purity := none,
                 time_in_process := 0 }] }, none) := by
    unfold addToPlace
    rw [hL1]
    dsimp only
    rw [add_tokens_nocap _ p hc]
  show (match addToPlace { s with uuid_ctr := s.uuid_ctr + 1 } "P"
      [{ ttype := "material", batch_id := "U" ++ toString s.uuid_ctr,
         mass := 1, T := none, purity := none, time_in_process := 0 }] with
    | (s2, none) => outputStage sel s2 []
    | (s2, some e) => (s2, some e)) = _
  rw [hadd]
  rfl

theorem fire_srcT (k : Nat) (s : NetState) (p : Place)
    (hL : s.lookupPlace "P" = some p) (hc : p.capacity = none) :
    (srcT k).fire { state := s, transitions := [srcT k] }
      = FireResult.ok []
          { state :=
              ({ s with uuid_ctr := s.uuid_ctr + 1 } : NetState).setPlace "P"
                { p with tokens := p.tokens ++
                    [{ ttype := "material",
                       batch_id := "U" ++ toString s.uuid_ctr,
                       mass := 1, T := none, purity := none,
                       time_in_process := 0 }] },
            transitions := [srcT (k + 1)] } := by
  have step1 : (srcT k).fire { state := s, transitions := [srcT k] }
      = (match outputStage [] s [("P", OutVal.weight 1)] with
          | (s2, some e) => FireResult.exn e
              { state := s2, transitions := [srcT k] }
          | (s2, none) => FireResult.ok []
              { state := s2,
                transitions := bumpFired [srcT k] "T" }) := rfl
  rw [outputStage_src [] s p hL hc] at step1
  exact step1.trans rfl

theorem autoRun_src (oracle : Nat → Nat) (policy : String) :
    ∀ (n idx k : Nat) (s : NetState) (p : Place),
      s.lookupPlace "P" = some p → p.capacity = none →
      (autoRunLoop oracle policy
          { state := s, transitions := [srcT k] } n idx).ticks = n
    ∧ (autoRunLoop oracle policy
          { state := s, transitions := [srcT k] } n idx).net.transitions
        = [srcT (k + n)]
    ∧ (autoRunLoop oracle policy
          { state := s, transitions := [srcT k] } n idx).error = none
    ∧ (autoRunLoop oracle policy
          { state := s, transitions := [srcT k] } n idx).deadlockStep = none := by
  intro n
  induction n with
  | zero =>
      intro idx k s p hL hc
      exact ⟨rfl, by simp [autoRunLoop], rfl, rfl⟩
  | succ v ih =>
      intro idx k s p hL hc
      unfold autoRunLoop
      dsimp only
      rw [show List.filter
          (fun t => t.is_enabled { state := s, transitions := [srcT k] })
          [srcT k] = [srcT k] from rfl]
      dsimp only
      rw [choosePolicy_getD_singleton policy (oracle idx) (srcT k)]
      rw [fire_srcT k s p hL hc]
      dsimp only
      set p2 : Place := { p with tokens := p.tokens ++
          [{ ttype := "material", batch_id := "U" ++ toString s.uuid_ctr,
             mass := 1, T := none, purity := none,
             time_in_process := 0 }] } with hp2
      set s1 : NetState := { s with uuid_ctr := s.uuid_ctr + 1 } with hs1
      set N2 : PetriNet :=
        { state := s1.setPlace "P" p2, transitions := [srcT (k + 1)] }
        with hN2
      set S2 : NetState := { (N2.state) with
          stats := bumpStat N2.state.stats ("fired::" ++ (srcT k).name),
          global_time := N2.state.global_time + 1 } with hS2
      rw [show tickStat N2 (srcT k).name
          = { state := S2, transitions := [srcT (k + 1)] } from rfl]
      have hpname : p.name = "P" := by simpa using List.find?_some hL
      have hL3 : S2.lookupPlace "P" = some p2 := by
        show (s1.setPlace "P" p2).lookupPlace "P" = some p2
        exact lookup_setPlace_eq s1 "P" p2 p hL hpname
      have hc2 : p2.capacity = none := hc
      obtain ⟨i1, i2, i3, i4⟩ := ih (idx + 1) (k + 1) S2 p2 hL3 hc2
      refine ⟨?_, ?_, i3, i4⟩
      · rw [i1]
      · rw [i2]
        have hkv : k + 1 + v = k + (v + 1) := by omega
        rw [hkv]

/-- C7 (amended): provided no fire during the run raises (the `Safe` static
conditions: no capacity bound reachable, everything registered, rules
preserving the roster and the clock), `auto_run(steps, policy)` performs at
most `steps` iterations, advances the logical clock by exactly one tick per
iteration whether or not the fire succeeded, and stops before completing
`steps` iterations only by taking the deadlock branch, reporting the step at
which no transition was enabled; on a net where exactly one (source)
transition is ever enabled and every fire succeeds,
`auto_run(steps=10, policy="prioritise")` fires it exactly 10 times, for
every stream of `random.choice` draws.  The claim as stated — the loop never
stops early for any other reason — is refuted by the counterexample below,
where the single fire raises a capacity error and aborts the run at step 0
with no deadlock report. -/
theorem C7_auto_run_behaviour (net : PetriNet) (steps : Nat) (policy : String)
    (oracle : Nat → Nat) (hs : net.Safe) (hc : RulesClockOk net) :
    (net.auto_run steps policy oracle).error = none
  ∧ (net.auto_run steps policy oracle).ticks ≤ steps
  ∧ (net.auto_run steps policy oracle).net.state.global_time
      = net.state.global_time + (net.auto_run steps policy oracle).ticks
  ∧ ((net.auto_run steps policy oracle).ticks < steps →
      (net.auto_run steps policy oracle).deadlockStep
        = some (net.auto_run steps policy oracle).ticks)
  ∧ (∀ o2 : Nat → Nat,
      (netSrc.auto_run 10 "prioritise" o2).net.transitions.map
        Transition.fired_count = [10]
      ∧ (netSrc.auto_run 10 "prioritise" o2).ticks = 10) := by
  obtain ⟨a1, a2, a3, a4⟩ := autoRunLoop_safe oracle policy steps 0 net hs hc
  refine ⟨a1, a2, a3, fun h => ?_, fun o2 => ?_⟩
  · have h4 := a4 h
    simpa using h4
  · obtain ⟨i1, i2, i3, i4⟩ := autoRun_src o2 "prioritise" 10 0 0 netSrc.state
      { name := "P", tokens := [], capacity := none } rfl rfl
    constructor
    · have hT : (netSrc.auto_run 10 "prioritise" o2).net.transitions
          = [srcT (0 + 10)] := i2
      rw [hT]
      rfl
    · exact i1

/-- Counterexample to C7 as stated: with the full `pout` (capacity 0), the
first iteration picks the enabled transition, the fire raises the capacity
error, and `auto_run` aborts at step 0 — before completing its 2 iterations,
with no clock tick and no deadlock report, even though the enabled set was
non-empty. -/
theorem C7_auto_run_behaviour_cex :
    (netCap.auto_run 2 "random" (fun _ => 0)).error
        = some "Place pout capacity exceeded"
  ∧ (netCap.auto_run 2 "random" (fun _ => 0)).ticks = 0
  ∧ (netCap.auto_run 2 "random" (fun _ => 0)).deadlockStep = none
  ∧ netCap.get_enabled_transitions.map Transition.name = ["T"] :=
  ⟨rfl, rfl, rfl, rfl⟩

/-- Witness for C7 (amended) on a concrete safe net. -/
theorem C7_auto_run_behaviour_witness :
    (netSrc.auto_run 3 "random" (fun _ => 1)).error = none
  ∧ (netSrc.auto_run 3 "random" (fun _ => 1)).ticks ≤ 3 := by
  have hsafe : netSrc.Safe := by
    refine ⟨by decide, by decide, ?_, ?_⟩
    · intro t ht pn f hm sel s
      have ht2 : t = Tsrc := by simpa [netSrc] using ht
      rw [ht2] at hm
      simp [Tsrc, srcT] at hm
    · intro t ht
      have ht2 : t = Tsrc := by simpa [netSrc] using ht
      rw [ht2]
      simp [Tsrc, srcT]
  have hclock : RulesClockOk netSrc := by
    intro t ht pn f hm sel s
    have ht2 : t = Tsrc := by simpa [netSrc] using ht
    rw [ht2] at hm
    simp [Tsrc, srcT] at hm
  obtain ⟨a1, a2, -⟩ :=
    C7_auto_run_behaviour netSrc 3 "random" (fun _ => 1) hsafe hclock
  exact ⟨a1, a2⟩

/-! ### Source transitions: enabledness and deadlock-freedom -/

theorem bumpFired_map_core (ts : List Transition) (nm : String) :
    (bumpFired ts nm).map Transition.core = ts.map Transition.core := by
  induction ts with
  | nil => rfl
  | cons t rest ih =>
      unfold bumpFired
      split
      · simp [Transition.core]
      · simp only [List.map_cons, ih]

theorem fire_map_core (t : Transition) (net : PetriNet) :
    ((t.fire net).resNet).transitions.map Transition.core
      = net.transitions.map Transition.core := by
  rcases fire_resNet_transitions t net with he | he
  · rw [he]
  · rw [he, bumpFired_map_core]

theorem map_inputs_of_map_core {l1 l2 : List Transition}
    (h : l1.map Transition.core = l2.map Transition.core) :
    l1.map Transition.inputs = l2.map Transition.inputs := by
  have h2 := congrArg (List.map (fun c => c.2.1)) h
  simpa [Function.comp, Transition.core] using h2

theorem hasSource_of_map_core {net2 net : PetriNet}
    (h : net2.transitions.map Transition.core
      = net.transitions.map Transition.core)
    (hs : hasSource net) : hasSource net2 := by
  unfold hasSource at hs ⊢
  rw [map_inputs_of_map_core h]
  exact hs

theorem enabled_of_hasSource (net : PetriNet) (hs : hasSource net) :
    net.get_enabled_transitions ≠ [] := by
  unfold hasSource at hs
  rcases List.mem_map.mp hs with ⟨t, ht, hin⟩
  have hen : t.is_enabled net = true := by
    simp [Transition.is_enabled, hin]
  have : t ∈ net.get_enabled_transitions := by
    unfold PetriNet.get_enabled_transitions
    exact List.mem_filter.mpr ⟨ht, hen⟩
  exact List.ne_nil_of_mem this

theorem autoRunLoop_no_deadlock (oracle : Nat → Nat) (policy : String) :
    ∀ (rem idx : Nat) (net : PetriNet), hasSource net →
      (autoRunLoop oracle policy net rem idx).deadlockStep = none := by
  intro rem
  induction rem with
  | zero => intro idx net _; rfl
  | succ v ih =>
      intro idx net hsrc
      unfold autoRunLoop
      dsimp only
      split
      · rename_i henb
        exact absurd henb (enabled_of_hasSource net hsrc)
      · rename_i hd tl henb
        have hsrc2 : ∀ (n2 : PetriNet),
            n2.transitions.map Transition.core
              = net.transitions.map Transition.core → hasSource n2 :=
          fun n2 hcr => hasSource_of_map_core hcr hsrc
        set chosen :=
          (choosePolicy policy (hd :: tl) (oracle idx)).getD hd with hch
        have hcore := fire_map_core chosen net
        rcases hF : chosen.fire net with ⟨info, n2⟩ | ⟨r2, n2⟩ | ⟨e2, n2⟩
        · rw [hF] at hcore
          exact ih (idx + 1) (tickStat n2 chosen.name) (hsrc2 _ hcore)
        · rw [hF] at hcore
          exact ih (idx + 1) (tickOnly n2) (hsrc2 _ hcore)
        · rfl

theorem addToPlace_noerr_cap (s : NetState) (pn : String)
    (ts : List ColouredToken) (p : Place) (hL : s.lookupPlace pn = some p)
    (hc : p.capacity = none) : (addToPlace s pn ts).2 = none := by
  unfold addToPlace
  rw [hL]
  dsimp only
  rw [add_tokens_nocap ts p hc]

theorem fire_empty_inputs_ok (t : Transition) (net : PetriNet)
    (hin : t.inputs = []) (hg : t.guard = none) (pn : String) (w : Nat)
    (houts : t.outputs = [(pn, OutVal.weight w)]) (p : Place)
    (hL : net.state.lookupPlace pn = some p) (hc : p.capacity = none) :
    (t.fire net).isOk = true := by
  have hen : t.is_enabled net = true := by
    simp [Transition.is_enabled, hin]
  have hsel : t.select_tokens net = some [] := by
    rw [Transition.select_tokens, hin]
    rfl
  unfold Transition.fire
  rw [hen, hsel, hg]
  dsimp only
  rw [show removeStage net.state [] = (net.state, none) from rfl]
  dsimp only
  rw [houts]
  have hsyp := synthTokens_places pn w net.state
  rcases hsy : synthTokens pn w net.state with ⟨prod, s1⟩
  rw [hsy] at hsyp
  have hL1 : s1.lookupPlace pn = some p := by
    unfold NetState.lookupPlace
    rw [hsyp]
    exact hL
  have hA2 := addToPlace_noerr_cap s1 pn prod p hL1 hc
  simp only [outputStage, hsy]
  rcases hA : addToPlace s1 pn prod with ⟨s2, err⟩
  rw [hA] at hA2
  subst hA2
  rfl

theorem find?_name_core (nm : String) :
    ∀ (l1 l2 : List Transition),
      l1.map Transition.core = l2.map Transition.core →
      (l1.find? (fun t => t.name == nm)).map Transition.core
        = (l2.find? (fun t => t.name == nm)).map Transition.core := by
  intro l1
  induction l1 with
  | nil =>
      intro l2 h
      cases l2 with
      | nil => rfl
      | cons q l2b => simp at h
  | cons p l1b ih =>
      intro l2 h
      cases l2 with
      | nil => simp at h
      | cons q l2b =>
          simp only [List.map_cons, List.cons.injEq] at h
          obtain ⟨h1, h2⟩ := h
          have hname : p.name = q.name := congrArg (fun c => c.1) h1
          simp only [List.find?_cons]
          rw [hname]
          cases hq : (q.name == nm)
          · simpa using ih l2b h2
          · simpa using h1

theorem find?_name_cap (nm : String) :
    ∀ (l1 l2 : List Place), l1.map placeShape = l2.map placeShape →
      (l1.find? (fun p => p.name == nm)).map Place.capacity
        = (l2.find? (fun p => p.name == nm)).map Place.capacity := by
  intro l1
  induction l1 with
  | nil =>
      intro l2 h
      cases l2 with
      | nil => rfl
      | cons q l2b => simp at h
  | cons p l1b ih =>
      intro l2 h
      cases l2 with
      | nil => simp at h
      | cons q l2b =>
          simp only [List.map_cons, List.cons.injEq] at h
          obtain ⟨h1, h2⟩ := h
          have hname : p.name = q.name := congrArg Prod.fst h1
          simp only [List.find?_cons]
          rw [hname]
          cases hq : (q.name == nm)
          · simpa using ih l2b h2
          · simpa using congrArg Prod.snd h1

theorem rulesShapeOk_of_map_core {net2 net : PetriNet}
    (h : net2.transitions.map Transition.core
      = net.transitions.map Transition.core)
    (hr : RulesShapeOk net) : RulesShapeOk net2 := by
  intro u hu pn f hm sel s
  have hmemc : u.core ∈ net.transitions.map Transition.core := by
    rw [← h]
    exact List.mem_map_of_mem Transition.core hu
  rcases List.mem_map.mp hmemc with ⟨v, hv, hvc⟩
  have ho : v.outputs = u.outputs := congrArg (fun c => c.2.2.1) hvc
  have hm2 : (pn, OutVal.rule f) ∈ v.outputs := by
    rw [ho]
    exact hm
  exact hr v hv pn f hm2 sel s

theorem fireByName_ok {net : PetriNet} {nm : String} {sel : Selection}
    {n2 : PetriNet} (h : net.fireByName nm = .ok sel n2) :
    ∃ tr, findTransition net nm = some tr ∧ tr.fire net = .ok sel n2 := by
  unfold PetriNet.fireByName at h
  split at h
  · cases h
  · rename_i tr hT
    exact ⟨tr, hT, h⟩

theorem replay_core_shape {net0 : PetriNet} {seq : List String}
    {n : PetriNet} (h : ReplaySeq net0 seq n) (hrs : RulesShapeOk net0) :
    n.transitions.map Transition.core
        = net0.transitions.map Transition.core
    ∧ n.state.shape = net0.state.shape := by
  induction h with
  | nil net => exact ⟨rfl, rfl⟩
  | @cons net nm sel n2 nfin rest hfire htail ih =>
      obtain ⟨tr, hT, hfire2⟩ := fireByName_ok hfire
      have hmem : tr ∈ net.transitions := List.mem_of_find?_eq_some hT
      have hcore := fire_map_core tr net
      have hshape := fire_resNet_shape tr net
        (fun pn f hm sel2 s => hrs tr hmem pn f hm sel2 s)
      rw [hfire2] at hcore hshape
      have hrs2 : RulesShapeOk n2 := rulesShapeOk_of_map_core hcore hrs
      obtain ⟨c1, c2⟩ := ih hrs2
      exact ⟨c1.trans hcore, c2.trans hshape⟩

theorem drawCoin_places (s : NetState) : (s.drawCoin).2.places = s.places := by
  unfold NetState.drawCoin
  cases s.coins <;> rfl

theorem create_NiCO4_shape (sel : Selection) (s : NetState) :
    ((create_NiCO4 sel s).1).places.map placeShape
      = s.places.map placeShape := by
  unfold create_NiCO4
  split <;> rfl

theorem addToPlace_shape_eq {s : NetState} {pn : String}
    {ts : List ColouredToken} {r : NetState × Option String}
    (h : addToPlace s pn ts = r) : r.1.shape = s.shape := by
  rw [← h]
  exact addToPlace_shape s pn ts

theorem T10_callable_shape (sel : Selection) (s : NetState) :
    ((T10_output_callable sel s).1).places.map placeShape
      = s.places.map placeShape := by
  unfold T10_output_callable
  split
  · rfl
  · rename_i inp tl heq
    dsimp only
    exact (addToPlace_shape _ "P_CO_recycle" _).trans
      (addToPlace_shape _ "P_pure_Ni" _)

theorem T12_callable_shape (sel : Selection) (s : NetState) :
    ((T12_callable sel s).1).places.map placeShape
      = s.places.map placeShape := by
  unfold T12_callable
  split
  · rfl
  · rename_i tok tl heq
    dsimp only
    split
    · exact (addToPlace_shape _ "P_storage" _).trans
        (by unfold NetState.shape; rw [drawCoin_places])
    · exact (addToPlace_shape _ "P_scrubber" _).trans
        (by unfold NetState.shape; rw [drawCoin_places])

theorem mond_rulesShapeOk (coins : List Bool) :
    RulesShapeOk (build_mond_process coins) := by
  intro t ht pn f hm sel s
  simp only [build_mond_process] at ht
  simp only [mondTransitions, List.mem_cons, List.not_mem_nil, or_false] at ht
  rcases ht with h|h|h|h|h|h|h|h|h|h|h|h|h|h
  all_goals subst h
  all_goals first
    | exact absurd hm (mkT_no_rules _ _ _ _ _ _)
    | skip
  · have heq := List.mem_singleton.mp hm
    injection heq with h1 h2
    injection h2 with h3
    subst h3
    exact create_NiCO4_shape sel s
  · have heq := List.mem_singleton.mp hm
    injection heq with h1 h2
    injection h2 with h3
    subst h3
    exact T10_callable_shape sel s
  · have heq := List.mem_singleton.mp hm
    injection heq with h1 h2
    injection h2 with h3
    subst h3
    exact T12_callable_shape sel s

theorem mond_hasSource (coins : List Bool) :
    hasSource (build_mond_process coins) := by
  show [] ∈ mondTransitions.map Transition.inputs
  decide

theorem mond_reachable_props (coins : List Bool) {seq : List String}
    {n : PetriNet} (h : ReplaySeq (build_mond_process coins) seq n) :
    n.get_enabled_transitions ≠ [] ∧ (n.fireByName "T1").isOk = true := by
  obtain ⟨hcore, hshape⟩ := replay_core_shape h (mond_rulesShapeOk coins)
  constructor
  · exact enabled_of_hasSource n
      (hasSource_of_map_core hcore (mond_hasSource coins))
  · have hf := find?_name_core "T1" n.transitions
      (build_mond_process coins).transitions hcore
    have hfm : (((build_mond_process coins).transitions.find?
          (fun t => t.name == "T1")).map Transition.core)
        = some (Transition.core
            (mkT "T1" [] [("P_feed_ore", 1)] "Receive ore (external).")) := rfl
    rw [hfm] at hf
    rcases hft : n.transitions.find? (fun t => t.name == "T1") with - | u
    · rw [hft] at hf
      simp at hf
    · rw [hft] at hf
      have huc : u.core = Transition.core
          (mkT "T1" [] [("P_feed_ore", 1)] "Receive ore (external).") := by
        simpa using hf
      have hui : u.inputs = [] := congrArg (fun c => c.2.1) huc
      have hg : u.guard = none := congrArg (fun c => c.2.2.2) huc
      have houts : u.outputs = [("P_feed_ore", OutVal.weight 1)] :=
        congrArg (fun c => c.2.2.1) huc
      have hcap := find?_name_cap "P_feed_ore" n.state.places
        (build_mond_process coins).state.places hshape
      have hcapm : (((build_mond_process coins).state.places.find?
            (fun p => p.name == "P_feed_ore")).map Place.capacity)
          = some none := rfl
      rw [hcapm] at hcap
      rcases hLp : n.state.places.find? (fun p => p.name == "P_feed_ore")
        with - | p
      · rw [hLp] at hcap
        simp at hcap
      · rw [hLp] at hcap
        have hpc : p.capacity = none := by simpa using hcap
        have hfb : n.fireByName "T1" = u.fire n := by
          unfold PetriNet.fireByName findTransition
          rw [hft]
        rw [hfb]
        exact fire_empty_inputs_ok u n hui hg "P_feed_ore" 1 houts p hLp hpc

/-- C10 (amended): a transition with an empty input mapping is enabled in
every net state, so the enabled set of any net containing one is never
empty; in the Mond net, T1 is such a guard-free source transition, the
enabled set is non-empty in every reachable state, firing T1 succeeds in
every reachable state (its only output place `P_feed_ore` is registered and
unbounded), and `auto_run` never takes the deadlock branch.  The claim's
blanket assertion that a guard-free source transition *always* fires
successfully is refuted by the counterexample below, where the transition's
only output place is a full capacity-bounded place and the fire raises. -/
theorem C10_source_transitions :
    (∀ (net : PetriNet) (t : Transition), t ∈ net.transitions →
        t.inputs = [] →
        t.is_enabled net = true ∧ net.get_enabled_transitions ≠ [])
  ∧ (∀ coins : List Bool, ∃ t ∈ (build_mond_process coins).transitions,
        t.name = "T1" ∧ t.inputs = [] ∧ t.guard = none)
  ∧ (∀ (coins : List Bool) (seq : List String) (n : PetriNet),
        ReplaySeq (build_mond_process coins) seq n →
        n.get_enabled_transitions ≠ [] ∧ (n.fireByName "T1").isOk = true)
  ∧ (∀ (coins : List Bool) (steps : Nat) (policy : String)
        (oracle : Nat → Nat),
        ((build_mond_process coins).auto_run steps policy oracle).deadlockStep
          = none) := by
  refine ⟨?_, ?_, ?_, ?_⟩
  · intro net t ht hin
    refine ⟨by simp [Transition.is_enabled, hin], ?_⟩
    exact enabled_of_hasSource net (List.mem_map.mpr ⟨t, ht, hin⟩)
  · intro coins
    refine ⟨mkT "T1" [] [("P_feed_ore", 1)] "Receive ore (external).",
      ?_, rfl, rfl, rfl⟩
    show _ ∈ mondTransitions
    simp [mondTransitions]
  · intro coins seq n h
    exact mond_reachable_props coins h
  · intro coins steps policy oracle
    exact autoRunLoop_no_deadlock oracle policy steps 0 _ (mond_hasSource coins)

/-- Counterexample to C10 as stated: a guard-free transition with empty
inputs is enabled, yet firing it raises (rather than succeeding) because its
only output place is full at capacity 0. -/
theorem C10_source_transitions_cex :
    TsrcCap.inputs = [] ∧ TsrcCap.guard = none
  ∧ TsrcCap.is_enabled netSrcCap = true
  ∧ (TsrcCap.fire netSrcCap).isOk = false
  ∧ (TsrcCap.fire netSrcCap).isExn = true :=
  ⟨rfl, rfl, rfl, rfl, rfl⟩

/-- Witness for C10 (amended) at concrete nets. -/
theorem C10_source_transitions_witness :
    Tsrc ∈ netSrc.transitions ∧ Tsrc.inputs = []
  ∧ Tsrc.is_enabled netSrc = true ∧ netSrc.get_enabled_transitions ≠ []
  ∧ ((build_mond_process []).fireByName "T1").isOk = true := by
  have h1 := (C10_source_transitions.1) netSrc Tsrc (by simp [netSrc]) rfl
  have h2 := (C10_source_transitions.2.2.1) [] [] (build_mond_process [])
    (ReplaySeq.nil _)
  exact ⟨by simp [netSrc], rfl, h1.1, h1.2, h2.2⟩

/-! ### Breadth-first search: helper lemmas -/

theorem ReplaySeq.snoc {a b c : PetriNet} {s : List String} {nm : String}
    {sel : Selection} (h : ReplaySeq a s b)
    (hstep : b.fireByName nm = .ok sel c) : ReplaySeq a (s ++ [nm]) c := by
  induction h with
  | nil net => exact ReplaySeq.cons hstep (ReplaySeq.nil c)
  | @cons net nm2 sel2 n2 nfin rest hfire htail ih =>
      exact ReplaySeq.cons hfire (ih hstep)

theorem safe_replay {net0 n : PetriNet} {seq : List String}
    (h : ReplaySeq net0 seq n) : net0.Safe → n.Safe := by
  induction h with
  | nil net => exact id
  | @cons net nm sel n2 nfin rest hfire htail ih =>
      intro hs
      obtain ⟨tr, hT, hfire2⟩ := fireByName_ok hfire
      have h2 := safe_fire_preserved hs (List.mem_of_find?_eq_some hT)
      rw [hfire2] at h2
      exact ih h2

theorem replay_trans_len {net0 n : PetriNet} {seq : List String}
    (h : ReplaySeq net0 seq n) :
    n.transitions.length = net0.transitions.length := by
  induction h with
  | nil net => rfl
  | @cons net nm sel n2 nfin rest hfire htail ih =>
      obtain ⟨tr, hT, hfire2⟩ := fireByName_ok hfire
      have h2 := congrArg List.length (fire_map_core tr net)
      rw [hfire2] at h2
      simp only [List.length_map] at h2
      exact ih.trans h2

theorem expandLoop_ok (net : PetriNet) (seq : List String) (hs : net.Safe) :
    ∀ ts, (∀ t ∈ ts, t ∈ net.transitions) →
      ∃ kids, expandLoop net seq ts = .ok kids
        ∧ (∀ c ∈ kids, ∃ nm sel, net.fireByName nm = .ok sel c.1
            ∧ c.2 = seq ++ [nm])
        ∧ kids.length ≤ ts.length
        ∧ (∀ t ∈ ts, ∀ sel n2, net.fireByName t.name = .ok sel n2 →
            (n2, seq ++ [t.name]) ∈ kids) := by
  intro ts
  induction ts with
  | nil =>
      intro _
      exact ⟨[], rfl, by simp, by simp, by simp⟩
  | cons u us ih =>
      intro hmem
      obtain ⟨kids, hk, hsound, hlen, hcompl⟩ :=
        ih (fun t ht => hmem t (List.mem_cons_of_mem _ ht))
      have humem : u ∈ net.transitions := hmem u (List.mem_cons_self _ _)
      have hfind : ∃ tr, findTransition net u.name = some tr := by
        rcases hT : findTransition net u.name with - | tr
        · exfalso
          have h2 := List.find?_eq_none.mp hT u humem
          simp at h2
        · exact ⟨tr, rfl⟩
      obtain ⟨tr, hT⟩ := hfind
      have htrmem : tr ∈ net.transitions := List.mem_of_find?_eq_some hT
      have hnoexn := safe_fire_no_exn hs htrmem
      have hfb : net.fireByName u.name = tr.fire net := by
        unfold PetriNet.fireByName
        rw [hT]
      rcases hF : tr.fire net with ⟨sel, n2⟩ | ⟨r, n2⟩ | ⟨e, n2⟩
      · refine ⟨(n2, seq ++ [u.name]) :: kids, ?_, ?_, ?_, ?_⟩
        · simp only [expandLoop, hfb, hF, hk]
        · intro c hc
          rcases List.mem_cons.mp hc with hc1 | hc1
          · subst hc1
            exact ⟨u.name, sel, hfb.trans hF, rfl⟩
          · exact hsound c hc1
        · simp only [List.length_cons]
          omega
        · intro t ht sel2 n22 hok
          rcases List.mem_cons.mp ht with rfl | htm
          · have h2 : FireResult.ok sel n2 = FireResult.ok sel2 n22 :=
              ((hfb.trans hF).symm).trans hok
            injection h2 with h3 h4
            rw [← h4]
            exact List.mem_cons_self _ _
          · exact List.mem_cons_of_mem _ (hcompl t htm sel2 n22 hok)
      · refine ⟨kids, ?_, hsound, Nat.le_succ_of_le hlen, ?_⟩
        · simp only [expandLoop, hfb, hF]
          exact hk
        · intro t ht sel2 n22 hok
          rcases List.mem_cons.mp ht with rfl | htm
          · rw [hfb, hF] at hok
            cases hok
          · exact hcompl t htm sel2 n22 hok
      · rw [hF] at hnoexn
        simp [FireResult.isExn] at hnoexn

theorem queueMeasure_cons (K maxd : Nat) (e : PetriNet × List String)
    (q : List (PetriNet × List String)) :
    queueMeasure K maxd (e :: q)
      = K ^ (maxd + 1 - e.2.length) + queueMeasure K maxd q := by
  simp [queueMeasure]

theorem queueMeasure_append (K maxd : Nat)
    (q1 q2 : List (PetriNet × List String)) :
    queueMeasure K maxd (q1 ++ q2)
      = queueMeasure K maxd q1 + queueMeasure K maxd q2 := by
  simp [queueMeasure]

theorem queueMeasure_pos (K maxd : Nat) (hK : 1 ≤ K)
    (e : PetriNet × List String) (q : List (PetriNet × List String)) :
    1 ≤ queueMeasure K maxd (e :: q) := by
  rw [queueMeasure_cons]
  have h1 : 1 ≤ K ^ (maxd + 1 - e.2.length) := Nat.one_le_pow _ _ hK
  omega

theorem queueMeasure_const_level (K maxd L : Nat)
    (kids : List (PetriNet × List String))
    (hall : ∀ c ∈ kids, c.2.length = L) :
    queueMeasure K maxd kids = kids.length * K ^ (maxd + 1 - L) := by
  induction kids with
  | nil => simp [queueMeasure]
  | cons c rest ih =>
      rw [queueMeasure_cons, hall c (List.mem_cons_self _ _),
        ih (fun d hd => hall d (List.mem_cons_of_mem _ hd))]
      simp only [List.length_cons]
      ring

theorem bfsLoop_run (goal : List (String × Nat) → Bool) (maxd : Nat)
    (net0 : PetriNet) (hsafe : net0.Safe) :
    ∀ fuel q,
      (∀ e ∈ q, ReplaySeq net0 e.2 e.1) →
      (∀ e ∈ q, e.2.length ≤ maxd) →
      queueMeasure (net0.transitions.length + 1) maxd q ≤ fuel →
      ∃ r, bfsLoop goal maxd fuel q = .ok r
        ∧ ∀ s, r = some s → s.length ≤ maxd
            ∧ ∃ m, ReplaySeq net0 s m ∧ goal m.status_snapshot = true := by
  intro fuel
  induction fuel with
  | zero =>
      intro q hInv hLen hFuel
      cases q with
      | nil => exact ⟨none, rfl, fun s hs => by cases hs⟩
      | cons e rest =>
          exfalso
          have h1 := queueMeasure_pos (net0.transitions.length + 1) maxd
            (by omega) e rest
          omega
  | succ fuel ih =>
      intro q hInv hLen hFuel
      cases q with
      | nil => exact ⟨none, rfl, fun s hs => by cases hs⟩
      | cons e rest =>
        obtain ⟨net, seq⟩ := e
        have hstep0 : bfsLoop goal maxd (fuel + 1) ((net, seq) :: rest)
            = if goal net.status_snapshot then Except.ok (some seq)
              else if maxd ≤ seq.length then bfsLoop goal maxd fuel rest
              else match expandLoop net seq
                  (net.transitions.filter (fun t => t.is_enabled net)) with
                | .error e => .error e
                | .ok kids => bfsLoop goal maxd fuel (rest ++ kids) := rfl
        have hHead := hInv _ (List.mem_cons_self _ _)
        dsimp only at hHead
        have hFc : (net0.transitions.length + 1) ^ (maxd + 1 - seq.length)
            + queueMeasure (net0.transitions.length + 1) maxd rest
              ≤ fuel + 1 := by
          have h0 := queueMeasure_cons (net0.transitions.length + 1) maxd
            (net, seq) rest
          dsimp only at h0
          omega
        have hA1 : 1 ≤ (net0.transitions.length + 1)
            ^ (maxd + 1 - seq.length) := Nat.one_le_pow _ _ (by omega)
        by_cases hg : goal net.status_snapshot = true
        · refine ⟨some seq, ?_, ?_⟩
          · rw [hstep0, if_pos hg]
          · intro s hs
            injection hs with hs
            subst hs
            exact ⟨hLen _ (List.mem_cons_self _ _), net, hHead, hg⟩
        · rw [Bool.not_eq_true] at hg
          by_cases hd : maxd ≤ seq.length
          · obtain ⟨r, hr, hsound⟩ := ih rest
              (fun e he => hInv e (List.mem_cons_of_mem _ he))
              (fun e he => hLen e (List.mem_cons_of_mem _ he))
              (by omega)
            refine ⟨r, ?_, hsound⟩
            rw [hstep0, if_neg (by simp [hg]), if_pos hd]
            exact hr
          · have hsafeN : net.Safe := safe_replay hHead hsafe
            obtain ⟨kids, hk, hsnd, hklen, hcompl⟩ :=
              expandLoop_ok net seq hsafeN
                (net.transitions.filter (fun t => t.is_enabled net))
                (fun t ht => (List.mem_filter.mp ht).1)
            have hkl : ∀ c ∈ kids, c.2.length = seq.length + 1 := by
              intro c hc
              obtain ⟨nm, sel, _, hc2⟩ := hsnd c hc
              rw [hc2]
              simp
            have hInv2 : ∀ e ∈ rest ++ kids, ReplaySeq net0 e.2 e.1 := by
              intro e he
              rcases List.mem_append.mp he with he1 | he1
              · exact hInv e (List.mem_cons_of_mem _ he1)
              · obtain ⟨nm, sel, hfire, hc2⟩ := hsnd e he1
                rw [hc2]
                exact ReplaySeq.snoc hHead hfire
            have hLen2 : ∀ e ∈ rest ++ kids, e.2.length ≤ maxd := by
              intro e he
              rcases List.mem_append.mp he with he1 | he1
              · exact hLen e (List.mem_cons_of_mem _ he1)
              · rw [hkl e he1]
                omega
            have hFuel2 : queueMeasure (net0.transitions.length + 1) maxd
                (rest ++ kids) ≤ fuel := by
              rw [queueMeasure_append,
                queueMeasure_const_level _ _ _ _ hkl]
              have hkn : kids.length ≤ net0.transitions.length := by
                have h2 := List.length_filter_le
                  (fun t => t.is_enabled net) net.transitions
                have h3 := replay_trans_len hHead
                omega
              have hm2 : kids.length
                    * (net0.transitions.length + 1)
                      ^ (maxd + 1 - (seq.length + 1))
                  ≤ net0.transitions.length
                    * (net0.transitions.length + 1)
                      ^ (maxd + 1 - (seq.length + 1)) :=
                Nat.mul_le_mul_right _ hkn
              have he1 : maxd + 1 - seq.length
                  = (maxd + 1 - (seq.length + 1)) + 1 := by omega
              have he2 : (net0.transitions.length + 1)
                    ^ ((maxd + 1 - (seq.length + 1)) + 1)
                  = net0.transitions.length
                      * (net0.transitions.length + 1)
                        ^ (maxd + 1 - (seq.length + 1))
                    + (net0.transitions.length + 1)
                        ^ (maxd + 1 - (seq.length + 1)) := by
                rw [pow_succ]
                ring
              rw [he1, he2] at hFc
              have hA2 : 1 ≤ (net0.transitions.length + 1)
                  ^ (maxd + 1 - (seq.length + 1)) :=
                Nat.one_le_pow _ _ (by omega)
              omega
            obtain ⟨r, hr, hsound⟩ := ih (rest ++ kids) hInv2 hLen2 hFuel2
            refine ⟨r, ?_, hsound⟩
            rw [hstep0, if_neg (by simp [hg]), if_neg hd, hk]
            exact hr

theorem pairwise_const {r : Nat → Nat → Prop} {c : Nat} (hr : r c c) :
    ∀ l : List Nat, (∀ x ∈ l, x = c) → List.Pairwise r l := by
  intro l
  induction l with
  | nil => intro h; exact List.Pairwise.nil
  | cons a l2 ih =>
      intro h
      refine List.Pairwise.cons ?_
        (ih (fun x hx => h x (List.mem_cons_of_mem _ hx)))
      intro b hb
      rw [h a (List.mem_cons_self _ _), h b (List.mem_cons_of_mem _ hb)]
      exact hr

theorem bfsLoop_complete (goal : List (String × Nat) → Bool) (maxd : Nat)
    (net0 : PetriNet) (hsafe : net0.Safe) :
    ∀ fuel q,
      (∀ e ∈ q, ReplaySeq net0 e.2 e.1) →
      queueMeasure (net0.transitions.length + 1) maxd q ≤ fuel →
      List.Pairwise (· ≤ ·) (q.map (fun e => e.2.length)) →
      List.Pairwise (fun a b => b ≤ a + 1) (q.map (fun e => e.2.length)) →
      ∀ e ∈ q, ∀ σ m, ReplaySeq e.1 σ m → goal m.status_snapshot = true →
        e.2.length + σ.length ≤ maxd →
        ∃ s, bfsLoop goal maxd fuel q = .ok (some s)
          ∧ s.length ≤ e.2.length + σ.length := by
  intro fuel
  induction fuel with
  | zero =>
      intro q hInv hFuel hSort hW1 e he σ m hrep hgoal hbudget
      exfalso
      cases q with
      | nil => exact List.not_mem_nil e he
      | cons e2 rest =>
          have h1 := queueMeasure_pos (net0.transitions.length + 1) maxd
            (by omega) e2 rest
          omega
  | succ fuel ih =>
      intro q hInv hFuel hSort hW1 e he σ m hrep hgoal hbudget
      cases q with
      | nil => exact absurd he (List.not_mem_nil e)
      | cons hd0 rest =>
        obtain ⟨net, seq⟩ := hd0
        have hstep0 : bfsLoop goal maxd (fuel + 1) ((net, seq) :: rest)
            = if goal net.status_snapshot then Except.ok (some seq)
              else if maxd ≤ seq.length then bfsLoop goal maxd fuel rest
              else match expandLoop net seq
                  (net.transitions.filter (fun t => t.is_enabled net)) with
                | .error e => .error e
                | .ok kids => bfsLoop goal maxd fuel (rest ++ kids) := rfl
        have hHead := hInv _ (List.mem_cons_self _ _)
        dsimp only at hHead
        rw [List.map_cons] at hSort hW1
        dsimp only at hSort hW1
        obtain ⟨hSortHd, hSortTl⟩ := List.pairwise_cons.mp hSort
        obtain ⟨hW1Hd, hW1Tl⟩ := List.pairwise_cons.mp hW1
        have hFc : (net0.transitions.length + 1) ^ (maxd + 1 - seq.length)
            + queueMeasure (net0.transitions.length + 1) maxd rest
              ≤ fuel + 1 := by
          have h0 := queueMeasure_cons (net0.transitions.length + 1) maxd
            (net, seq) rest
          dsimp only at h0
          omega
        have hA1 : 1 ≤ (net0.transitions.length + 1)
            ^ (maxd + 1 - seq.length) := Nat.one_le_pow _ _ (by omega)
        by_cases hg : goal net.status_snapshot = true
        · refine ⟨seq, ?_, ?_⟩
          · rw [hstep0, if_pos hg]
          · have hmin : seq.length ≤ e.2.length := by
              rcases List.mem_cons.mp he with rfl | he1
              · exact Nat.le_refl _
              · exact hSortHd _ (List.mem_map_of_mem _ he1)
            omega
        · rw [Bool.not_eq_true] at hg
          by_cases hdp : maxd ≤ seq.length
          · have he1 : e ∈ rest := by
              rcases List.mem_cons.mp he with rfl | he1
              · exfalso
                have hbud2 : seq.length + σ.length ≤ maxd := hbudget
                have hrep2 : ReplaySeq net σ m := hrep
                have hσ : σ = [] := List.length_eq_zero.mp (by omega)
                subst hσ
                cases hrep2
                rw [hg] at hgoal
                simp at hgoal
              · exact he1
            obtain ⟨s, hs, hslen⟩ := ih rest
              (fun e2 he2 => hInv e2 (List.mem_cons_of_mem _ he2))
              (by omega) hSortTl hW1Tl e he1 σ m hrep hgoal hbudget
            refine ⟨s, ?_, hslen⟩
            rw [hstep0, if_neg (by simp [hg]), if_pos hdp]
            exact hs
          · have hsafeN : net.Safe := safe_replay hHead hsafe
            obtain ⟨kids, hk, hsnd, hklen, hcompl⟩ :=
              expandLoop_ok net seq hsafeN
                (net.transitions.filter (fun t => t.is_enabled net))
                (fun t ht => (List.mem_filter.mp ht).1)
            have hkl : ∀ c ∈ kids, c.2.length = seq.length + 1 := by
              intro c hc
              obtain ⟨nm, sel, _, hc2⟩ := hsnd c hc
              rw [hc2]
              simp
            have hInv2 : ∀ e2 ∈ rest ++ kids, ReplaySeq net0 e2.2 e2.1 := by
              intro e2 he2
              rcases List.mem_append.mp he2 with he3 | he3
              · exact hInv e2 (List.mem_cons_of_mem _ he3)
              · obtain ⟨nm, sel, hfire, hc2⟩ := hsnd e2 he3
                rw [hc2]
                exact ReplaySeq.snoc hHead hfire
            have hFuel2 : queueMeasure (net0.transitions.length + 1) maxd
                (rest ++ kids) ≤ fuel := by
              rw [queueMeasure_append,
                queueMeasure_const_level _ _ _ _ hkl]
              have hkn : kids.length ≤ net0.transitions.length := by
                have h2 := List.length_filter_le
                  (fun t => t.is_enabled net) net.transitions
                have h3 := replay_trans_len hHead
                omega
              have hm2 : kids.length
                    * (net0.transitions.length + 1)
                      ^ (maxd + 1 - (seq.length + 1))
                  ≤ net0.transitions.length
                    * (net0.transitions.length + 1)
                      ^ (maxd + 1 - (seq.length + 1)) :=
                Nat.mul_le_mul_right _ hkn
              have he2 : maxd + 1 - seq.length
                  = (maxd + 1 - (seq.length + 1)) + 1 := by omega
              have he3 : (net0.transitions.length + 1)
                    ^ ((maxd + 1 - (seq.length + 1)) + 1)
                  = net0.transitions.length
                      * (net0.transitions.length + 1)
                        ^ (maxd + 1 - (seq.length + 1))
                    + (net0.transitions.length + 1)
                        ^ (maxd + 1 - (seq.length + 1)) := by
                rw [pow_succ]
                ring
              rw [he2, he3] at hFc
              have hA2 : 1 ≤ (net0.transitions.length + 1)
                  ^ (maxd + 1 - (seq.length + 1)) :=
                Nat.one_le_pow _ _ (by omega)
              omega
            have hSort2 : List.Pairwise (· ≤ ·)
                ((rest ++ kids).map (fun e => e.2.length)) := by
              rw [List.map_append, List.pairwise_append]
              refine ⟨hSortTl, ?_, ?_⟩
              · refine pairwise_const (Nat.le_refl (seq.length + 1)) _ ?_
                intro x hx
                obtain ⟨c, hc, hxc⟩ := List.mem_map.mp hx
                rw [← hxc]
                exact hkl c hc
              · intro a ha b hb
                obtain ⟨c, hc, hbc⟩ := List.mem_map.mp hb
                have hb2 : b = seq.length + 1 := by
                  rw [← hbc]
                  exact hkl c hc
                have h2 : a ≤ seq.length + 1 := hW1Hd a ha
                show a ≤ b
                omega
            have hW12 : List.Pairwise (fun a b => b ≤ a + 1)
                ((rest ++ kids).map (fun e => e.2.length)) := by
              rw [List.map_append, List.pairwise_append]
              refine ⟨hW1Tl, ?_, ?_⟩
              · exact @pairwise_const (fun a b => b ≤ a + 1)
                  (seq.length + 1)
                  (by show seq.length + 1 ≤ seq.length + 1 + 1; omega)
                  (List.map (fun e => e.2.length) kids)
                  (fun x hx => by
                    obtain ⟨c, hc, hxc⟩ := List.mem_map.mp hx
                    rw [← hxc]
                    exact hkl c hc)
              · intro a ha b hb
                obtain ⟨c, hc, hbc⟩ := List.mem_map.mp hb
                have hb2 : b = seq.length + 1 := by
                  rw [← hbc]
                  exact hkl c hc
                have h2 : seq.length ≤ a := hSortHd a ha
                show b ≤ a + 1
                omega
            rcases List.mem_cons.mp he with rfl | he1
            · dsimp only at hrep hgoal hbudget
              cases σ with
              | nil =>
                  exfalso
                  cases hrep
                  rw [hg] at hgoal
                  simp at hgoal
              | cons nm σ2 =>
                  have hb2 : seq.length + σ2.length + 1 ≤ maxd := by
                    simp only [List.length_cons] at hbudget
                    omega
                  cases hrep with
                  | cons hfire htail =>
                    rename_i sel n2
                    obtain ⟨tr, hT, hfire2⟩ := fireByName_ok hfire
                    have hname : tr.name = nm := by
                      unfold findTransition at hT
                      have h2 := List.find?_some hT
                      exact eq_of_beq h2
                    have htrmem : tr ∈ net.transitions :=
                      List.mem_of_find?_eq_some hT
                    have hen : tr.is_enabled net = true :=
                      (fire_ok_decomp hfire2).1
                    have htrf : tr ∈ net.transitions.filter
                        (fun t => t.is_enabled net) :=
                      List.mem_filter.mpr ⟨htrmem, hen⟩
                    have hkid := hcompl tr htrf sel n2
                      (by rw [hname]; exact hfire)
                    rw [hname] at hkid
                    obtain ⟨s, hs, hslen⟩ := ih (rest ++ kids) hInv2 hFuel2
                      hSort2 hW12 (n2, seq ++ [nm])
                      (List.mem_append_right _ hkid) σ2 m htail hgoal
                      (by
                        dsimp only
                        simp only [List.length_append, List.length_cons,
                          List.length_nil]
                        omega)
                    refine ⟨s, ?_, ?_⟩
                    · rw [hstep0, if_neg (by simp [hg]), if_neg hdp, hk]
                      exact hs
                    · dsimp only at hslen
                      simp only [List.length_append, List.length_cons,
                        List.length_nil] at hslen
                      dsimp only
                      simp only [List.length_cons]
                      omega
            · obtain ⟨s, hs, hslen⟩ := ih (rest ++ kids) hInv2 hFuel2
                hSort2 hW12 e (List.mem_append_left _ he1) σ m hrep hgoal
                hbudget
              refine ⟨s, ?_, hslen⟩
              rw [hstep0, if_neg (by simp [hg]), if_neg hdp, hk]
              exact hs

/-- C6: breadth-first search correctness, under the no-raise conditions
(`Safe`: no capacity bounds, registered places, roster-preserving rules).
`find_sequence_bfs` never raises: it returns `Except.ok r` where (a) a
returned sequence has length at most `max_depth` and replays from the
initial net to a state satisfying the goal, (b) if any firing sequence of
length at most `max_depth` reaches the goal, the search returns a sequence
no longer than it (minimality over all witnesses), and (c) if no firing
sequence of length at most `max_depth` reaches the goal, it returns `none`
rather than an error.  (On unsafe nets the search raises instead of
returning `None` — see the counterexample.) -/
theorem C6_bfs_correctness (net0 : PetriNet)
    (goal : List (String × Nat) → Bool) (maxd : Nat) (hsafe : net0.Safe) :
    ∃ r, find_sequence_bfs net0 goal maxd = Except.ok r
      ∧ (∀ s, r = some s → s.length ≤ maxd
          ∧ ∃ m, ReplaySeq net0 s m ∧ goal m.status_snapshot = true)
      ∧ (∀ σ m, ReplaySeq net0 σ m → goal m.status_snapshot = true →
          σ.length ≤ maxd → ∃ s, r = some s ∧ s.length ≤ σ.length)
      ∧ ((∀ σ m, ReplaySeq net0 σ m → σ.length ≤ maxd →
          goal m.status_snapshot = false) → r = none) := by
  have hInv0 : ∀ e ∈ [(net0, ([] : List String))], ReplaySeq net0 e.2 e.1 := by
    intro e he
    rcases List.mem_singleton.mp he with rfl
    exact ReplaySeq.nil net0
  have hLen0 : ∀ e ∈ [(net0, ([] : List String))], e.2.length ≤ maxd := by
    intro e he
    rcases List.mem_singleton.mp he with rfl
    show ([] : List String).length ≤ maxd
    simp
  have hFuel0 : queueMeasure (net0.transitions.length + 1) maxd
      [(net0, ([] : List String))] ≤ bfsFuel net0 maxd := by
    have h0 : queueMeasure (net0.transitions.length + 1) maxd
        [(net0, ([] : List String))] = bfsFuel net0 maxd := by
      simp [queueMeasure, bfsFuel]
    exact le_of_eq h0
  obtain ⟨r, hr, hsound⟩ := bfsLoop_run goal maxd net0 hsafe
    (bfsFuel net0 maxd) [(net0, [])] hInv0 hLen0 hFuel0
  refine ⟨r, ?_, hsound, ?_, ?_⟩
  · show bfsLoop goal maxd (bfsFuel net0 maxd) [(net0, [])] = Except.ok r
    exact hr
  · intro σ m hrep hgoal hlen
    obtain ⟨s, hs, hslen⟩ := bfsLoop_complete goal maxd net0 hsafe
      (bfsFuel net0 maxd) [(net0, [])] hInv0 hFuel0 (by simp) (by simp)
      (net0, []) (List.mem_singleton.mpr rfl) σ m hrep hgoal
      (by show ([] : List String).length + σ.length ≤ maxd; simpa using hlen)
    have h2 := hr.symm.trans hs
    injection h2 with h3
    refine ⟨s, h3, ?_⟩
    have h4 : s.length ≤ ([] : List String).length + σ.length := hslen
    simpa using h4
  · intro hnone
    rcases hR : r with - | s
    · rfl
    · obtain ⟨hl2, m, hrep2, hgoal2⟩ := hsound s hR
      have h5 := hnone s m hrep2 hl2
      rw [h5] at hgoal2
      simp at hgoal2

/-- Counterexample to C6 as stated: on `netCap` (output place `pout` full at
capacity 0) with a goal no state satisfies, `find_sequence_bfs` does not
return `None` — the capacity `ValueError` raised while expanding the root
propagates out of the search. -/
theorem C6_bfs_correctness_cex :
    find_sequence_bfs netCap (fun _ => false) 1
        = Except.error "Place pout capacity exceeded"
  ∧ (∀ σ m, ReplaySeq netCap σ m → σ.length ≤ 1 →
      (fun _ => false) m.status_snapshot = false) :=
  ⟨rfl, fun _ _ _ _ => rfl⟩

/-- Witness for C6 (amended) on a concrete safe net: the two-step chain,
with the goal of one token in `c`. -/
theorem C6_bfs_correctness_witness :
    netChain.Safe
  ∧ ∃ r, find_sequence_bfs netChain chainGoal 3 = Except.ok r
      ∧ (∀ s, r = some s → s.length ≤ 3
          ∧ ∃ m, ReplaySeq netChain s m ∧ chainGoal m.status_snapshot = true)
      ∧ (∀ σ m, ReplaySeq netChain σ m → chainGoal m.status_snapshot = true →
          σ.length ≤ 3 → ∃ s, r = some s ∧ s.length ≤ σ.length)
      ∧ ((∀ σ m, ReplaySeq netChain σ m → σ.length ≤ 3 →
          chainGoal m.status_snapshot = false) → r = none) := by
  have hsafe : netChain.Safe := by
    refine ⟨by decide, by decide, ?_, ?_⟩
    · intro t ht pn f hm sel s
      have ht2 : t = mkT "Tab" [("a", 1)] [("b", 1)] ""
          ∨ t = mkT "Tbc" [("b", 1)] [("c", 1)] "" := by
        simpa [netChain] using ht
      rcases ht2 with rfl | rfl
      · exact absurd hm (mkT_no_rules "Tab" [("a", 1)] [("b", 1)] "" pn f)
      · exact absurd hm (mkT_no_rules "Tbc" [("b", 1)] [("c", 1)] "" pn f)
    · intro t ht
      have ht2 : t = mkT "Tab" [("a", 1)] [("b", 1)] ""
          ∨ t = mkT "Tbc" [("b", 1)] [("c", 1)] "" := by
        simpa [netChain] using ht
      rcases ht2 with rfl | rfl <;> decide
  exact ⟨hsafe, C6_bfs_correctness netChain chainGoal 3 hsafe⟩
